import Mathlib

/-!
# Verification of the mercatoria_rust state-transition core

A shallow embedding, in Lean 4, of the parts of the `mercatoria_rust`
repository that the checked claims are about: hex paths (`hex_path.rs`),
the content-addressed store (`hashlookup.rs`), the block data model
(`blockdata.rs`), radix-tree queries (`queries.rs`), the account
transform (`account_transform.rs`), account/data-tree construction
(`account_construction.rs`), block construction (`construction.rs`) and
block verification (`verification.rs`).

Modelling conventions:

* Machine integers (`u128`, `u64`, `u32`, `usize`) are `Nat`; `i64`
  (timestamps) is `Int`, with Rust's truncated remainder (`Int.tmod`).
  None of the verified code paths overflow, and the source relies on
  panics rather than wrapping for out-of-range arithmetic; a Rust panic
  (index out of bounds, division by zero) is modelled as an error.
* Byte strings are `List Nat`.  The canonical serialization
  (`rmp_serde::to_vec_named`) is modelled by an injective, deterministic
  encoder per type, with a matching partial decoder
  (`rmp_serde::from_read`).
* The blake3 digest is modelled as a perfect (collision-free) digest:
  the digest of a byte string is the byte string itself, so a typed hash
  `Hash<T>` is the canonical encoding of the value.  The one exception
  forced by the source is `ed25519_dalek::PublicKey`, whose canonical
  form is its raw 32 bytes, so the account of a key (`hash(&key).code`)
  is the key itself; this keeps `bytes_to_path(account)` 64 nibbles long
  exactly as in the source.
* The content store (`HashLookup`/`HashPut`) stores canonical byte
  strings keyed by their digest; with a perfect digest the store is the
  set of byte strings that have been put.  `M` is the store-passing
  error monad all the translated functions run in; an error leaves the
  store as it was at the failure point, matching `&mut`-threading in
  Rust.
* Ed25519 signatures are modelled symbolically: the detached signature
  made with key `k` over message bytes `m` is `wrBytes k ++ m`, and
  verification recomputes it; this captures determinism and correctness
  of the scheme, which is all the source relies on.
-/

namespace Mercatoria

/-- A byte string (`Vec<u8>`).  Entries are untruncated naturals; all
literal bytes appearing in the development are below 256. -/
abbrev Bytes := List Nat

/-- `hex_path.rs`: a `HexPath` is a sequence of hex digits (`u4`),
modelled as naturals below 16. -/
abbrev HexPath := List Nat

/-- `hex_path.rs::bytes_to_path`: two nibbles per byte, high first. -/
def bytes_to_path (bs : Bytes) : HexPath :=
  (bs.map (fun b => [b / 16, b % 16])).flatten

/-- `hex_path.rs::is_prefix` (also `queries.rs::is_prefix`). -/
def isPrefixL (pre full : List Nat) : Bool :=
  decide (pre.length ≤ full.length) && (pre.zip full).all (fun xy => xy.1 == xy.2)

/-- `hex_path.rs::is_postfix`. -/
def isPostfixL (post full : List Nat) : Bool :=
  decide (post.length ≤ full.length) &&
    (post.reverse.zip full.reverse).all (fun xy => xy.1 == xy.2)

/-- `queries.rs::longest_prefix_length`. -/
def longest_prefix_length : List Nat → List Nat → Nat
  | x :: xs, y :: ys => if x = y then longest_prefix_length xs ys + 1 else 0
  | _, _ => 0

/-- `crypto.rs::path_to_hash_code`, packing two nibbles per byte.  The
source panics when the path is not 64 digits long; the panic is
modelled as `none`. -/
def path_to_hash_code (p : HexPath) : Option Bytes :=
  if p.length = 64 then some (packPairs p) else none
where
  /-- Packs consecutive nibble pairs into bytes. -/
  packPairs : List Nat → List Nat
    | a :: b :: rest => (a * 16 + b) :: packPairs rest
    | _ => []

/-! ## Canonical serialization

The canonical, self-describing serialization (`rmp_serde`) is modelled
by self-delimiting writers `wr*` with partial readers `rd*`; a typed
value is encoded as the concatenation of its fields' encodings.  Every
reader satisfies `rd (wr v ++ rest) = some (v, rest)`, which gives
determinism and injectivity — the two properties the source relies on
(bit-identical serialization at every hash/sign/store site). -/

/-- Writes one natural (self-delimiting: fixed width one). -/
def wrNat (n : Nat) : Bytes := [n]

/-- Writes an integer (sign tag, then magnitude). -/
def wrInt : Int → Bytes
  | .ofNat n => [0, n]
  | .negSucc n => [1, n]

/-- Writes a byte string, length-prefixed. -/
def wrBytes (bs : Bytes) : Bytes := bs.length :: bs

/-- Writes an optional value (tag 0 = none, 1 = some). -/
def wrOpt (wr : α → Bytes) : Option α → Bytes
  | none => [0]
  | some a => 1 :: wr a

/-- Writes a list of values, count-prefixed. -/
def wrList (wr : α → Bytes) (xs : List α) : Bytes :=
  xs.length :: (xs.map wr).flatten

/-- Reads one natural. -/
def rdNat : Bytes → Option (Nat × Bytes)
  | n :: rest => some (n, rest)
  | [] => none

/-- Reads an integer. -/
def rdInt : Bytes → Option (Int × Bytes)
  | 0 :: n :: rest => some (Int.ofNat n, rest)
  | 1 :: n :: rest => some (Int.negSucc n, rest)
  | _ => none

/-- Reads a length-prefixed byte string. -/
def rdBytes : Bytes → Option (Bytes × Bytes)
  | n :: rest =>
    if n ≤ rest.length then some (rest.take n, rest.drop n) else none
  | [] => none

/-- Reads an optional value. -/
def rdOpt (rd : Bytes → Option (α × Bytes)) : Bytes → Option (Option α × Bytes)
  | 0 :: rest => some (none, rest)
  | 1 :: rest => (rd rest).map (fun vr => (some vr.1, vr.2))
  | _ => none

/-- Reads `n` values in sequence. -/
def rdCount (rd : Bytes → Option (α × Bytes)) : Nat → Bytes → Option (List α × Bytes)
  | 0, bs => some ([], bs)
  | n + 1, bs => do
    let (v, bs1) ← rd bs
    let (vs, bs2) ← rdCount rd n bs1
    some (v :: vs, bs2)

/-- Reads a count-prefixed list. -/
def rdList (rd : Bytes → Option (α × Bytes)) (bs : Bytes) :
    Option (List α × Bytes) := do
  let (n, bs1) ← rdNat bs
  rdCount rd n bs1

/-! ## Data model (`blockdata.rs`, `crypto.rs`)

With the perfect-digest convention a `Hash<T>` is the canonical byte
encoding of the value, so hash-typed fields below are `Bytes`.  The
snapshot of the source used by `queries.rs`, `account_construction.rs`
and `account_transform.rs` represents radix children as a sorted vector
of `(full suffix, child hash)` pairs (see
`account_construction.rs::children_paths_well_formed` and
`queries.rs::rh_follow_path`); that representation is used here.  The
16-slot `RadixChildren` representation of `blockdata.rs` is embedded
separately in namespace `BD` below for the claims that cite it. -/

/-- `crypto.rs::Signature<T>`: an ed25519 signature together with its
public key.  `PublicKey` is its raw 32 bytes. -/
structure Signature where
  sig : Bytes
  key : Bytes
deriving DecidableEq, Repr

/-- `crypto.rs::sign`, symbolically: the detached signature of message
bytes `m` under key `k` is `wrBytes k ++ m`. -/
def mkSig (key msgEnc : Bytes) : Signature :=
  ⟨wrBytes key ++ msgEnc, key⟩

/-- `crypto.rs::verify_sig` over the canonical encoding of the message. -/
def verify_sig (msgEnc : Bytes) (s : Signature) : Bool :=
  s.sig == wrBytes s.key ++ msgEnc

/-- `crypto.rs::Signature::account`: the hash of the public key. -/
def Signature.account (s : Signature) : Bytes := s.key

/-- `blockdata.rs::QuorumNodeStats`. -/
structure QuorumNodeStats where
  fee : Nat
  gas : Nat
  new_nodes : Nat
  prize : Nat
  stake : Nat
deriving DecidableEq, Repr

/-- `QuorumNodeStats::zero`. -/
def QuorumNodeStats.zero : QuorumNodeStats := ⟨0, 0, 0, 0, 0⟩

/-- `QuorumNodeStats::plus`. -/
def QuorumNodeStats.plus (a b : QuorumNodeStats) : QuorumNodeStats :=
  ⟨a.fee + b.fee, a.gas + b.gas, a.new_nodes + b.new_nodes,
    a.prize + b.prize, a.stake + b.stake⟩

/-- `blockdata.rs::QuorumNodeBody`.  The flat `total_fee`/`total_gas`/
`total_stake`/`total_prize`/`new_nodes` fields used by the
`account_construction.rs`/`queries.rs` snapshot are the `stats` fields
(`account_construction.rs::cached_tree_info` records the
correspondence). -/
structure QuorumNodeBody where
  last_main : Option Bytes
  path : HexPath
  children : List (HexPath × Bytes)
  data_tree : Option Bytes
  new_action : Option Bytes
  prize : Nat
  stats : QuorumNodeStats
deriving DecidableEq, Repr

/-- `blockdata.rs::QuorumNode`. -/
structure QuorumNode where
  body : QuorumNodeBody
  signatures : Option Bytes
deriving DecidableEq, Repr

/-- `blockdata.rs::DataNode`. -/
structure DataNode where
  field : Option Bytes
  children : List (HexPath × Bytes)
deriving DecidableEq, Repr

/-- `blockdata.rs::MainOptions`. -/
structure MainOptions where
  gas_cost : Nat
  gas_limit : Nat
  timestamp_period_ms : Nat
  main_block_signers : Nat
  main_block_signatures_required : Nat
  random_seed_period : Nat
  quorum_period : Nat
  max_quorum_depth : Nat
  quorum_sizes_thresholds : List (Nat × Nat)
deriving DecidableEq, Repr

/-- `blockdata.rs::MainBlockBody`. -/
structure MainBlockBody where
  prev : Option Bytes
  version : Nat
  timestamp_ms : Int
  tree : Bytes
  options : Bytes
deriving DecidableEq, Repr

/-- `blockdata.rs::PreSignedMainBlock`. -/
structure PreSignedMainBlock where
  body : MainBlockBody
  signatures : List Signature
deriving DecidableEq, Repr

/-- `blockdata.rs::MainBlock`. -/
structure MainBlock where
  block : PreSignedMainBlock
  signature : Signature
deriving DecidableEq, Repr

/-- `blockdata.rs::Action`. -/
structure Action where
  last_main : Bytes
  fee : Nat
  command : Bytes
  args : List Bytes
deriving DecidableEq, Repr

/-- `blockdata.rs::SendInfo`.  In the `account_transform.rs` snapshot
the `recipient` is an `Option<HashCode>` (`run_action` builds it as
`Some(recipient)` and `do_receive` compares with `Some(this_account)`). -/
structure SendInfo where
  last_main : Bytes
  sender : Bytes
  recipient : Option Bytes
  send_amount : Nat
  initialize_spec : Option Bytes
  message : Bytes
deriving DecidableEq, Repr

/-! ### Canonical encodings of the data model -/

/-- Writes a `(suffix, hash)` child entry. -/
def wrChild (c : HexPath × Bytes) : Bytes := wrBytes c.1 ++ wrBytes c.2

/-- Reads a child entry. -/
def rdChild (bs : Bytes) : Option ((HexPath × Bytes) × Bytes) := do
  let (p, bs1) ← rdBytes bs
  let (h, bs2) ← rdBytes bs1
  some ((p, h), bs2)

/-- Canonical encoding of a `Signature`. -/
def encSignature (s : Signature) : Bytes := wrBytes s.sig ++ wrBytes s.key

/-- Reads a `Signature`. -/
def rdSignature (bs : Bytes) : Option (Signature × Bytes) := do
  let (sg, bs1) ← rdBytes bs
  let (k, bs2) ← rdBytes bs1
  some (⟨sg, k⟩, bs2)

/-- Canonical encoding of `QuorumNodeStats`. -/
def encStats (st : QuorumNodeStats) : Bytes :=
  wrNat st.fee ++ wrNat st.gas ++ wrNat st.new_nodes ++ wrNat st.prize ++ wrNat st.stake

/-- Reads `QuorumNodeStats`. -/
def rdStats (bs : Bytes) : Option (QuorumNodeStats × Bytes) := do
  let (fee, bs1) ← rdNat bs
  let (gas, bs2) ← rdNat bs1
  let (nn, bs3) ← rdNat bs2
  let (pr, bs4) ← rdNat bs3
  let (stk, bs5) ← rdNat bs4
  some (⟨fee, gas, nn, pr, stk⟩, bs5)

/-- Canonical encoding of a `QuorumNodeBody`. -/
def encQuorumNodeBody (b : QuorumNodeBody) : Bytes :=
  wrOpt wrBytes b.last_main ++ wrBytes b.path ++ wrList wrChild b.children ++
    wrOpt wrBytes b.data_tree ++ wrOpt wrBytes b.new_action ++ wrNat b.prize ++
    encStats b.stats

/-- Reads a `QuorumNodeBody`. -/
def rdQuorumNodeBody (bs : Bytes) : Option (QuorumNodeBody × Bytes) := do
  let (lm, bs1) ← rdOpt rdBytes bs
  let (p, bs2) ← rdBytes bs1
  let (cs, bs3) ← rdList rdChild bs2
  let (dt, bs4) ← rdOpt rdBytes bs3
  let (na, bs5) ← rdOpt rdBytes bs4
  let (pr, bs6) ← rdNat bs5
  let (st, bs7) ← rdStats bs6
  some (⟨lm, p, cs, dt, na, pr, st⟩, bs7)

/-- Canonical encoding of a `QuorumNode`. -/
def encQuorumNode (qn : QuorumNode) : Bytes :=
  encQuorumNodeBody qn.body ++ wrOpt wrBytes qn.signatures

/-- Reads a `QuorumNode`. -/
def rdQuorumNode (bs : Bytes) : Option (QuorumNode × Bytes) := do
  let (b, bs1) ← rdQuorumNodeBody bs
  let (sg, bs2) ← rdOpt rdBytes bs1
  some (⟨b, sg⟩, bs2)

/-- Canonical encoding of a `DataNode`. -/
def encDataNode (dn : DataNode) : Bytes :=
  wrOpt wrBytes dn.field ++ wrList wrChild dn.children

/-- Reads a `DataNode`. -/
def rdDataNode (bs : Bytes) : Option (DataNode × Bytes) := do
  let (f, bs1) ← rdOpt rdBytes bs
  let (cs, bs2) ← rdList rdChild bs1
  some (⟨f, cs⟩, bs2)

/-- Canonical encoding of a `(size, threshold)` pair. -/
def wrSizeThreshold (st : Nat × Nat) : Bytes := wrNat st.1 ++ wrNat st.2

/-- Reads a `(size, threshold)` pair. -/
def rdSizeThreshold (bs : Bytes) : Option ((Nat × Nat) × Bytes) := do
  let (a, bs1) ← rdNat bs
  let (b, bs2) ← rdNat bs1
  some ((a, b), bs2)

/-- Canonical encoding of `MainOptions`. -/
def encMainOptions (o : MainOptions) : Bytes :=
  wrNat o.gas_cost ++ wrNat o.gas_limit ++ wrNat o.timestamp_period_ms ++
    wrNat o.main_block_signers ++ wrNat o.main_block_signatures_required ++
    wrNat o.random_seed_period ++ wrNat o.quorum_period ++
    wrNat o.max_quorum_depth ++ wrList wrSizeThreshold o.quorum_sizes_thresholds

/-- Reads `MainOptions`. -/
def rdMainOptions (bs : Bytes) : Option (MainOptions × Bytes) := do
  let (gc, bs1) ← rdNat bs
  let (gl, bs2) ← rdNat bs1
  let (tp, bs3) ← rdNat bs2
  let (ms, bs4) ← rdNat bs3
  let (mr, bs5) ← rdNat bs4
  let (rsp, bs6) ← rdNat bs5
  let (qp, bs7) ← rdNat bs6
  let (mqd, bs8) ← rdNat bs7
  let (qst, bs9) ← rdList rdSizeThreshold bs8
  some (⟨gc, gl, tp, ms, mr, rsp, qp, mqd, qst⟩, bs9)

/-- Canonical encoding of a `MainBlockBody`. -/
def encMainBlockBody (b : MainBlockBody) : Bytes :=
  wrOpt wrBytes b.prev ++ wrNat b.version ++ wrInt b.timestamp_ms ++
    wrBytes b.tree ++ wrBytes b.options

/-- Reads a `MainBlockBody`. -/
def rdMainBlockBody (bs : Bytes) : Option (MainBlockBody × Bytes) := do
  let (pv, bs1) ← rdOpt rdBytes bs
  let (v, bs2) ← rdNat bs1
  let (t, bs3) ← rdInt bs2
  let (tr, bs4) ← rdBytes bs3
  let (op, bs5) ← rdBytes bs4
  some (⟨pv, v, t, tr, op⟩, bs5)

/-- Canonical encoding of a `PreSignedMainBlock`. -/
def encPreSignedMainBlock (b : PreSignedMainBlock) : Bytes :=
  encMainBlockBody b.body ++ wrList encSignature b.signatures

/-- Reads a `PreSignedMainBlock`. -/
def rdPreSignedMainBlock (bs : Bytes) : Option (PreSignedMainBlock × Bytes) := do
  let (b, bs1) ← rdMainBlockBody bs
  let (sgs, bs2) ← rdList rdSignature bs1
  some (⟨b, sgs⟩, bs2)

/-- Canonical encoding of a `MainBlock`. -/
def encMainBlock (m : MainBlock) : Bytes :=
  encPreSignedMainBlock m.block ++ encSignature m.signature

/-- Reads a `MainBlock`. -/
def rdMainBlock (bs : Bytes) : Option (MainBlock × Bytes) := do
  let (b, bs1) ← rdPreSignedMainBlock bs
  let (sg, bs2) ← rdSignature bs1
  some (⟨b, sg⟩, bs2)

/-- Canonical encoding of an `Action`. -/
def encAction (a : Action) : Bytes :=
  wrBytes a.last_main ++ wrNat a.fee ++ wrBytes a.command ++ wrList wrBytes a.args

/-- Reads an `Action`. -/
def rdAction (bs : Bytes) : Option (Action × Bytes) := do
  let (lm, bs1) ← rdBytes bs
  let (fee, bs2) ← rdNat bs1
  let (c, bs3) ← rdBytes bs2
  let (ars, bs4) ← rdList rdBytes bs3
  some (⟨lm, fee, c, ars⟩, bs4)

/-- Canonical encoding of a `SendInfo`. -/
def encSendInfo (si : SendInfo) : Bytes :=
  wrBytes si.last_main ++ wrBytes si.sender ++ wrOpt wrBytes si.recipient ++
    wrNat si.send_amount ++ wrOpt wrBytes si.initialize_spec ++ wrBytes si.message

/-- Reads a `SendInfo`. -/
def rdSendInfo (bs : Bytes) : Option (SendInfo × Bytes) := do
  let (lm, bs1) ← rdBytes bs
  let (sd, bs2) ← rdBytes bs1
  let (rc, bs3) ← rdOpt rdBytes bs2
  let (am, bs4) ← rdNat bs3
  let (sp, bs5) ← rdOpt rdBytes bs4
  let (msg, bs6) ← rdBytes bs5
  some (⟨lm, sd, rc, am, sp, msg⟩, bs6)

/-- Turns a partial reader into a whole-string decoder
(`rmp_serde::from_read` on a complete value). -/
def decOf (rd : Bytes → Option (α × Bytes)) (bs : Bytes) : Option α :=
  match rd bs with
  | some (v, []) => some v
  | _ => none

/-- Canonical encoding of a `u128`/`u64`/`bool`-like scalar stored in a
typed data field. -/
def encU128 (n : Nat) : Bytes := wrNat n

/-- Canonical encoding of a `bool` stored in a typed data field. -/
def encBool (b : Bool) : Bytes := [if b then 1 else 0]

/-- Reads a `bool`. -/
def rdBool : Bytes → Option (Bool × Bytes)
  | 0 :: rest => some (false, rest)
  | 1 :: rest => some (true, rest)
  | _ => none


/-! ## Content store and effect monad (`hashlookup.rs`)

With a perfect digest the key of an entry is the stored byte string
itself, so the store is the set of byte strings that have been put.
`M` passes the store through every computation; `HashPut::put_bytes`
extends it, `HashLookup::lookup_bytes` reads it.  Errors carry the
`bail!`/`anyhow!` message of the source. -/

/-- The content-addressed store: the set of byte strings that have been
put (`hashlookup.rs::MapHashLookup`). -/
abbrev Store := List Bytes

/-- The store-passing error monad every translated `async fn ->
Result<_, anyhow::Error>` runs in.  On error the store keeps the puts
made before the failure, exactly as a `&mut` store does in Rust. -/
def M (α : Type) : Type := Store → Except String α × Store

instance : Monad M where
  pure a := fun s => (.ok a, s)
  bind m f := fun s =>
    match m s with
    | (.ok a, s1) => f a s1
    | (.error e, s1) => (.error e, s1)

/-- `bail!` / error propagation. -/
def throwM (e : String) : M α := fun s => (.error e, s)

/-- `HashLookup::lookup_bytes`. -/
def lookup_bytes (h : Bytes) : M Bytes := fun s =>
  (if h ∈ s then .ok h else .error "not found", s)

/-- `HashLookup::lookup`: look up the bytes, then deserialize. -/
def lookupT (rd : Bytes → Option (α × Bytes)) (h : Bytes) : M α := do
  let bs ← lookup_bytes h
  match decOf rd bs with
  | some v => pure v
  | none => throwM "Decode"

/-- `HashPut::put_bytes`. -/
def put_bytes (bs : Bytes) : M Bytes := fun s =>
  (.ok bs, if bs ∈ s then s else bs :: s)

/-- `HashPut::put`: serialize, then put. -/
def putT (enc : α → Bytes) (v : α) : M Bytes := put_bytes (enc v)

/-- A computation that only extends the store. -/
def MMono (m : M α) : Prop := ∀ s : Store, ∀ b ∈ s, b ∈ (m s).2

/-- A computation that never changes the store (pure reads). -/
def MReads (m : M α) : Prop := ∀ s : Store, (m s).2 = s

/-! ## Tree queries (`queries.rs`)

`rh_follow_path` walks a radix hash tree: it accumulates a pending
prefix one digit at a time; if some child edge has the pending prefix as
a prefix the walk may continue (descending when the match is exact), and
otherwise it fails with `RH node not found`. -/

/-- `queries.rs::rh_follow_path`.  `pref` is the accumulated `prefix`
local of the source's loop (initially empty). -/
def rh_follow_path (rdN : Bytes → Option (N × Bytes))
    (getChildren : N → List (HexPath × Bytes)) (node : N) (pref : HexPath) :
    HexPath → M (N × HexPath)
  | [] => pure (node, pref)
  | d :: rest =>
    let pref1 := pref ++ [d]
    let found := (getChildren node).any (fun c => isPrefixL pref1 c.1)
    match (getChildren node).find? (fun c => pref1 == c.1) with
    | some c => do
      let child ← lookupT rdN c.2
      rh_follow_path rdN getChildren child [] rest
    | none =>
      if found then rh_follow_path rdN getChildren node pref1 rest
      else throwM "RH node not found"

/-- `queries.rs::quorum_node_follow_path`. -/
def quorum_node_follow_path (node : QuorumNode) (path : HexPath) :
    M (QuorumNode × HexPath) :=
  rh_follow_path rdQuorumNode (fun qn => qn.body.children) node [] path

/-- `queries.rs::lookup_quorum_node`. -/
def lookup_quorum_node (main : MainBlockBody) (path : HexPath) :
    M (QuorumNode × HexPath) := do
  let top ← lookupT rdQuorumNode main.tree
  quorum_node_follow_path top path

/-- The walk of `rh_follow_path` with a divergent branch reported as
`none` instead of `bail!`.  The callers of `lookup_quorum_node` and
`lookup_account` in `account_transform.rs`, `account_construction.rs`,
`construction.rs` and `verification.rs` match the results against
`Option` (a missing node/account is `None`, e.g. an account being
initialized); the `queries.rs` file in the tree bails instead.  This
variant is the reading under which those callers typecheck. -/
def rh_follow_path_opt (rdN : Bytes → Option (N × Bytes))
    (getChildren : N → List (HexPath × Bytes)) (node : N) (pref : HexPath) :
    HexPath → M (Option (N × HexPath))
  | [] => pure (some (node, pref))
  | d :: rest =>
    let pref1 := pref ++ [d]
    let found := (getChildren node).any (fun c => isPrefixL pref1 c.1)
    match (getChildren node).find? (fun c => pref1 == c.1) with
    | some c => do
      let child ← lookupT rdN c.2
      rh_follow_path_opt rdN getChildren child [] rest
    | none =>
      if found then rh_follow_path_opt rdN getChildren node pref1 rest
      else pure none

/-- `lookup_quorum_node` as its callers use it: `None` when there is no
node at the path. -/
def lookup_quorum_node_opt (main : MainBlockBody) (path : HexPath) :
    M (Option (QuorumNode × HexPath)) := do
  let top ← lookupT rdQuorumNode main.tree
  rh_follow_path_opt rdQuorumNode (fun qn => qn.body.children) top [] path

/-- `queries.rs::lookup_account` as its callers use it: `Some` exactly
on an exact hit at the account's 64-digit path. -/
def lookup_account (main : MainBlockBody) (acct : Bytes) :
    M (Option QuorumNode) := do
  match ← lookup_quorum_node_opt main (bytes_to_path acct) with
  | none => pure none
  | some (qn, extra) =>
    if extra.length ≠ 0 then pure none else pure (some qn)

/-- `queries.rs::data_node_follow_path`. -/
def data_node_follow_path (node : DataNode) (path : HexPath) :
    M (DataNode × HexPath) :=
  rh_follow_path rdDataNode (fun dn => dn.children) node [] path

/-- `queries.rs::lookup_data_in_account`. -/
def lookup_data_in_account (qn : QuorumNode) (path : HexPath) :
    M (Option Bytes) := do
  match qn.body.data_tree with
  | none => throwM "no data tree"
  | some dth => do
    let top_dn ← lookupT rdDataNode dth
    let (dn, extra) ← data_node_follow_path top_dn path
    if extra.length ≠ 0 then pure none else pure dn.field

/-- `queries.rs::block_with_version`.  The source's loop follows `prev`
links; the chain is finite in any store reachable by construction, and
the walk is fuelled here because an adversarial store could lie about
versions. -/
def block_with_version (fuel : Nat) (mb : MainBlockBody) (version : Nat) :
    M MainBlockBody :=
  match fuel with
  | 0 => throwM "out of fuel"
  | fuel + 1 =>
    if version > mb.version then
      throwM "version higher than given main block version"
    else if version = mb.version then pure mb
    else
      match mb.prev with
      | none => throwM "tried to get version before the first block"
      | some h => do
        let prevBlock ← lookupT rdMainBlock h
        block_with_version fuel prevBlock.block.body version

/-- `queries.rs::random_seed_of_block`.  `hash(&body).code` is the
canonical encoding under the perfect digest.  A `u64` division by zero
panics in Rust and is modelled as an error. -/
def random_seed_of_block (fuel : Nat) (main : MainBlockBody) : M Bytes := do
  let opts ← lookupT rdMainOptions main.options
  let period := opts.random_seed_period
  if period = 0 then throwM "panic: division by zero"
  else do
    let b ← block_with_version fuel main (main.version / period * period)
    pure (encMainBlockBody b)

/-- `queries.rs::stake_indexed_account`, translated literally.  The
source wraps the body in `loop`, but the cursor `qn` is never advanced
and the inner for-loop's `continue` targets the for-loop itself, so a
single pass either returns (at depth 64), or falls through the for-loop
to the final `bail!`; the for-loop's effect on `(stake_ix, sum_so_far)`
is the fold below, which the fall-through discards. -/
def stake_indexed_account (qn : QuorumNode) (stake_ix : Nat) : M Bytes := do
  if stake_ix ≥ qn.body.stats.stake then throwM "index exceeds total stake"
  else
    let path := qn.body.path
    if path.length = 64 then
      match path_to_hash_code path with
      | some hc => pure hc
      | none => throwM "panic: path length"
    else do
      let children ← qn.body.children.mapM (fun c => lookupT rdQuorumNode c.2)
      let child_stakes := children.map (fun ch => ch.body.stats.stake)
      let _ := child_stakes.foldl
        (fun (acc : Nat × Nat) cs =>
          if acc.1 < acc.2 + cs then (acc.1 - acc.2, acc.2) else (acc.1, acc.2 + cs))
        (stake_ix, 0)
      throwM "total stake does not equal sum of child node total stakes!"

/-- The format string `"miner"` (ASCII). -/
def minerId : Bytes := [109, 105, 110, 101, 114]

/-- The format string `"signer {i}"`. -/
def signerId (i : Nat) : Bytes := [115, 105, 103, 110, 101, 114, 32] ++ wrNat i

/-- The format string `"quorum {path} {i} {j}"`. -/
def quorumId (path : HexPath) (i j : Nat) : Bytes :=
  [113, 117, 111, 114, 117, 109, 32] ++ wrBytes path ++ wrNat i ++ wrNat j

/-- `queries.rs::random_account`.  The `format!` of
`"random_account {seed} {version} {rand_id}"` is modelled by the
injective concatenation of its parts; its hash is itself under the
perfect digest. -/
def random_account (fuel : Nat) (main : MainBlockBody) (seed : Bytes)
    (rand_id : Bytes) : M Bytes := do
  let opts ← lookupT rdMainOptions main.options
  let rand_period := opts.random_seed_period
  if rand_period = 0 then throwM "panic: division by zero"
  else do
    let rounded0 := main.version / rand_period * rand_period
    let rounded := if rounded0 > 0 then rounded0 - rand_period else rounded0
    let stake_main ← block_with_version fuel main rounded
    let top ← lookupT rdQuorumNode stake_main.tree
    if top.body.stats.stake = 0 then
      throwM "can't select random account when there is no stake"
    else
      let full_id := wrBytes seed ++ wrNat main.version ++ wrBytes rand_id
      let rand_val := (full_id.take 16).foldl (fun a b => a * 256 + b) 0
      stake_indexed_account top (rand_val % top.body.stats.stake)

/-- `queries.rs::miner_and_signers_by_prev_block`. -/
def miner_and_signers_by_prev_block (fuel : Nat) (main : MainBlock) :
    M (Bytes × List Bytes) := do
  let body := main.block.body
  let opts ← lookupT rdMainOptions body.options
  let num_signers := opts.main_block_signers
  let seed ← random_seed_of_block fuel body
  let miner ← random_account fuel body seed minerId
  let signers ← (List.range num_signers).mapM
    (fun i => random_account fuel body seed (signerId i))
  pure (miner, signers)

/-- `queries.rs::quorums_by_prev_block`. -/
def quorums_by_prev_block (fuel : Nat) (main : MainBlockBody) (path : HexPath) :
    M (List (List Bytes × Nat)) := do
  let opts1 ← lookupT rdMainOptions main.options
  let sizes_thresholds := opts1.quorum_sizes_thresholds
  let opts2 ← lookupT rdMainOptions main.options
  let period := opts2.quorum_period
  if period = 0 then throwM "panic: division by zero"
  else do
    let bv0 := main.version / period * period
    let base_version := if bv0 > 0 then bv0 - period else bv0
    let rand_acct_main ← block_with_version fuel main base_version
    let seed ← random_seed_of_block fuel rand_acct_main
    (List.range sizes_thresholds.length).mapM (fun i => do
      let st := sizes_thresholds.getD i (0, 0)
      let members ← (List.range st.1).mapM
        (fun j => random_account fuel rand_acct_main seed (quorumId path i j))
      pure (members, st.2))

/-! ## Account transform (`account_transform.rs`) -/

/-- `account_transform.rs::TypedDataField<T>`: only the path is data;
the phantom type's codec is passed at each typed access. -/
structure TypedDataField where
  path : HexPath
deriving DecidableEq, Repr

/-- `account_transform.rs::field_balance` (`b"balance"`). -/
def field_balance : TypedDataField :=
  ⟨bytes_to_path [98, 97, 108, 97, 110, 99, 101]⟩

/-- `account_transform.rs::field_stake`.  The source builds this path
from `b"balance"`, not `b"stake"`. -/
def field_stake : TypedDataField :=
  ⟨bytes_to_path [98, 97, 108, 97, 110, 99, 101]⟩

/-- `account_transform.rs::field_public_key` (`b"public_key"`). -/
def field_public_key : TypedDataField :=
  ⟨bytes_to_path [112, 117, 98, 108, 105, 99, 95, 107, 101, 121]⟩

/-- `account_transform.rs::field_send`: `b"send"` followed by the
nibbles of the `SendInfo` hash. -/
def field_send (send_hash : Bytes) : TypedDataField :=
  ⟨bytes_to_path [115, 101, 110, 100] ++ bytes_to_path send_hash⟩

/-- `account_transform.rs::field_received`: `b"received"` followed by
the nibbles of the `SendInfo` hash. -/
def field_received (send_hash : Bytes) : TypedDataField :=
  ⟨bytes_to_path [114, 101, 99, 101, 105, 118, 101, 100] ++ bytes_to_path send_hash⟩

/-- Lexicographic order on hex paths: the `Ord` of `Vec<u4>` underlying
`BTreeMap<HexPath, _>`. -/
def pathLexLt : HexPath → HexPath → Bool
  | [], [] => false
  | [], _ :: _ => true
  | _ :: _, [] => false
  | a :: as', b :: bs' =>
    if a < b then true else if b < a then false else pathLexLt as' bs'

/-- `BTreeMap::get` on the overlay. -/
def mapGet : List (HexPath × Bytes) → HexPath → Option Bytes
  | [], _ => none
  | (k1, v1) :: rest, k => if k1 = k then some v1 else mapGet rest k

/-- `BTreeMap::insert` on the overlay, keeping the entries sorted by key
as a `BTreeMap` does. -/
def mapInsert : List (HexPath × Bytes) → HexPath → Bytes → List (HexPath × Bytes)
  | [], k, v => [(k, v)]
  | (k1, v1) :: rest, k, v =>
    if k = k1 then (k, v) :: rest
    else if pathLexLt k k1 then (k, v) :: (k1, v1) :: rest
    else (k1, v1) :: mapInsert rest k v

/-- `account_transform.rs::AccountTransform` (the store is threaded by
`M` rather than held as the `hl` member). -/
structure AccountTransform where
  is_initializing : Bool
  this_account : Bytes
  last_main : Bytes
  fields_set : List (HexPath × Bytes)
deriving DecidableEq, Repr

/-- The store-resolution half of
`account_transform.rs::get_data_field_bytes` (everything after the
overlay check): NOTE that the source resolves against
`self.this_account`, ignoring the `acct` argument. -/
def AccountTransform.base_read (a : AccountTransform) (field_name : HexPath) :
    M (Option Bytes) := do
  let main ← lookupT rdMainBlock a.last_main
  match ← lookup_account main.block.body a.this_account with
  | some acct_node => lookup_data_in_account acct_node field_name
  | none => pure none

/-- `account_transform.rs::get_data_field_bytes`: the overlay satisfies
the read only when `acct` is this account; the base read then resolves
against `self.this_account` (see `base_read`). -/
def AccountTransform.get_data_field_bytes (a : AccountTransform) (acct : Bytes)
    (field_name : HexPath) : M (Option Bytes) :=
  match (if acct = a.this_account then mapGet a.fields_set field_name else none) with
  | some x => pure (some x)
  | none => a.base_read field_name

/-- `account_transform.rs::set_data_field_bytes` (pure overlay update). -/
def AccountTransform.set_data_field_bytes (a : AccountTransform)
    (field_name : HexPath) (value : Bytes) : AccountTransform :=
  { a with fields_set := mapInsert a.fields_set field_name value }

/-- `account_transform.rs::get_data_field`: read bytes, then deserialize. -/
def AccountTransform.get_data_field (rd : Bytes → Option (α × Bytes))
    (a : AccountTransform) (acct : Bytes) (f : TypedDataField) : M (Option α) := do
  match ← a.get_data_field_bytes acct f.path with
  | none => pure none
  | some bs =>
    match decOf rd bs with
    | some v => pure (some v)
    | none => throwM "Decode"

/-- `account_transform.rs::get_data_field_or_error`. -/
def AccountTransform.get_data_field_or_error (rd : Bytes → Option (α × Bytes))
    (a : AccountTransform) (acct : Bytes) (f : TypedDataField) : M α := do
  match ← AccountTransform.get_data_field rd a acct f with
  | none => throwM "data field not found"
  | some x => pure x

/-- `account_transform.rs::set_data_field`: serialize, then set. -/
def AccountTransform.set_data_field (enc : α → Bytes) (a : AccountTransform)
    (f : TypedDataField) (value : α) : AccountTransform :=
  a.set_data_field_bytes f.path (enc value)

/-- `account_transform.rs::pay_fee`. -/
def pay_fee (a : AccountTransform) (fee : Nat) : M AccountTransform := do
  let bal ← AccountTransform.get_data_field_or_error rdNat a a.this_account field_balance
  if bal < fee then throwM "not enough balance for fee"
  else pure (AccountTransform.set_data_field encU128 a field_balance (bal - fee))

/-- `account_transform.rs::do_send`. -/
def do_send (a : AccountTransform) (send : SendInfo) : M AccountTransform := do
  if send.sender ≠ a.this_account then throwM "sender must be sent by this account"
  else if send.last_main ≠ a.last_main then
    throwM "last main of send must be the current last main"
  else do
    let bal ← AccountTransform.get_data_field_or_error rdNat a a.this_account field_balance
    if bal < send.send_amount then throwM "not enough balance for send"
    else do
      let send_df := field_send (encSendInfo send)
      match ← AccountTransform.get_data_field rdSendInfo a a.this_account send_df with
      | some _ => throwM "that was already sent"
      | none =>
        let a1 := AccountTransform.set_data_field encU128 a field_balance
          (bal - send.send_amount)
        pure (AccountTransform.set_data_field encSendInfo a1 send_df send)

/-- `account_transform.rs::do_receive`. -/
def do_receive (a : AccountTransform) (sender : Bytes) (send_hash : Bytes) :
    M (SendInfo × AccountTransform) := do
  let send ← AccountTransform.get_data_field_or_error rdSendInfo a sender
    (field_send send_hash)
  if encSendInfo send ≠ send_hash then throwM "send hashes don't match"
  else if send.recipient ≠ some a.this_account then
    throwM "recipient of send doesn't match recipient"
  else do
    let received_field := field_received send_hash
    let already_received ← AccountTransform.get_data_field rdBool a a.this_account
      received_field
    if already_received = some true then throwM "tried to receive the same send twice"
    else do
      let bal ← AccountTransform.get_data_field_or_error rdNat a a.this_account
        field_balance
      let a1 := AccountTransform.set_data_field encU128 a field_balance
        (bal + send.send_amount)
      pure (send, AccountTransform.set_data_field encBool a1 received_field true)

/-- Lifts a plain `Result` into the store monad (functions such as
`get_arg` are not `async` in the source). -/
def liftE (e : Except String α) : M α := fun s => (e, s)

/-- `account_transform.rs::get_arg`. -/
def get_arg (rd : Bytes → Option (α × Bytes)) (args : List Bytes) (i : Nat) :
    Except String α :=
  match args[i]? with
  | none => .error "too few arguments"
  | some bs =>
    match decOf rd bs with
    | some v => .ok v
    | none => .error "Decode"

/-- `account_transform.rs::verify_signature_argument`: the signature
argument is checked against a copy of the action whose `args[i]` is
emptied. -/
def verify_signature_argument (acct : Bytes) (action : Action) (i : Nat) :
    Except String Unit := do
  let sig ← get_arg rdSignature action.args i
  if sig.account ≠ acct then .error "signature account must equal current account"
  else
    let act2 : Action := { action with args := action.args.set i [] }
    if verify_sig (encAction act2) sig then .ok ()
    else .error "invalid signature"

/-- The command literal `b"send"`. -/
def sendCmd : Bytes := [115, 101, 110, 100]

/-- The command literal `b"receive"`. -/
def receiveCmd : Bytes := [114, 101, 99, 101, 105, 118, 101]

/-- `account_transform.rs::run_action`. -/
def run_action (a : AccountTransform) (action : Action) : M AccountTransform := do
  if a.last_main ≠ action.last_main then
    throwM "action last main must equal current last main"
  else if action.command = sendCmd then
    if a.is_initializing then throwM "send can't initialize an account"
    else do
      let recipient ← liftE (get_arg rdBytes action.args 0)
      let send_amount ← liftE (get_arg rdNat action.args 1)
      let initialize_spec ← liftE (get_arg (rdOpt rdBytes) action.args 2)
      let message ← liftE (get_arg rdBytes action.args 3)
      let _ ← liftE (verify_signature_argument a.this_account action 4)
      let a1 ← pay_fee a action.fee
      let send : SendInfo :=
        ⟨action.last_main, a.this_account, some recipient, send_amount,
          initialize_spec, message⟩
      do_send a1 send
  else if action.command = receiveCmd then do
    let sender ← liftE (get_arg rdBytes action.args 0)
    let send_hash ← liftE (get_arg rdBytes action.args 1)
    let sig ← liftE (get_arg rdSignature action.args 2)
    let _ ← liftE (verify_signature_argument a.this_account action 2)
    let a1 :=
      if a.is_initializing then
        AccountTransform.set_data_field (fun bs => bs)
          (AccountTransform.set_data_field encU128
            (AccountTransform.set_data_field encU128 a field_balance 0)
            field_stake 0)
          field_public_key sig.key
      else a
    let (_, a2) ← do_receive a1 sender send_hash
    pay_fee a2 action.fee
  else throwM "unknown command"

/-! ## Account construction (`account_construction.rs`) -/

/-- `account_construction.rs::children_paths_well_formed`: every child
suffix is nonempty and first digits are strictly increasing. -/
def children_paths_well_formed (children : List (HexPath × α)) : Bool :=
  match children with
  | [] => true
  | (p, _) :: rest =>
    match p with
    | [] => false
    | p0 :: _ => go p0 rest
where
  /-- Continues the scan carrying the previous entry's first digit. -/
  go (prev0 : Nat) : List (HexPath × α) → Bool
    | [] => true
    | (p, _) :: rest =>
      match p with
      | [] => false
      | p0 :: _ => decide (prev0 < p0) && go p0 rest

/-- `account_construction.rs::insert_child`: place a child into the
sorted child vector, replacing the child with the same first digit if
present.  Reading the first digit of an empty suffix panics in the
source; the panic is `none`. -/
def insert_child (c : HexPath × α) (cs : List (HexPath × α)) :
    Option (List (HexPath × α)) :=
  match c.1 with
  | [] => none
  | c0 :: _ => go c0 cs
where
  /-- The scan for the insertion point. -/
  go (c0 : Nat) : List (HexPath × α) → Option (List (HexPath × α))
    | [] => some [c]
    | (p, x) :: rest =>
      match p with
      | [] => none
      | p0 :: _ =>
        if c0 ≤ p0 then
          if p0 = c0 then some (c :: rest) else some (c :: (p, x) :: rest)
        else (go c0 rest).map (fun r => (p, x) :: r)

/-- `account_construction.rs::data_node_insert_child`. -/
def data_node_insert_child (child : HexPath × Bytes) (tree : DataNode)
    (node_count : Nat) : M (Bytes × Nat) := do
  match insert_child child tree.children with
  | none => throwM "panic: index out of bounds"
  | some new_children => do
    let h ← putT encDataNode ⟨tree.field, new_children⟩
    pure (h, node_count + 1)

/-- The source's scan (inside `insert_into_data_tree`) for the child
whose suffix starts with `path[0]`; reading `suffix[0]` of an empty
suffix panics.  The hit is returned head/tail-split. -/
def find_child_by_head (p0 : Nat) :
    List (HexPath × Bytes) → Except String (Option (Nat × HexPath × Bytes))
  | [] => .ok none
  | (p, h) :: rest =>
    match p with
    | [] => .error "panic: index out of bounds"
    | q0 :: qrest =>
      if q0 = p0 then .ok (some (q0, qrest, h)) else find_child_by_head p0 rest

/-- `account_construction.rs::insert_into_data_tree`.  The
`&mut usize` node counter is threaded as the last argument. -/
def insert_into_data_tree (path : HexPath) (fieldv : Bytes) (hash_tree : Bytes)
    (node_count : Nat) : M (Bytes × Nat) := do
  let tree ← lookupT rdDataNode hash_tree
  match path with
  | [] => do
    let h ← putT encDataNode ⟨some fieldv, tree.children⟩
    pure (h, node_count + 1)
  | p0 :: prest =>
    match ← liftE (find_child_by_head p0 tree.children) with
    | some (q0, qrest, child_hash) =>
      if isPrefixL (q0 :: qrest) (p0 :: prest) then do
        let (new_child_hash, nc1) ←
          insert_into_data_tree (prest.drop qrest.length) fieldv child_hash node_count
        data_node_insert_child (q0 :: qrest, new_child_hash) tree nc1
      else do
        let k := longest_prefix_length prest qrest
        let mid ← putT encDataNode ⟨none, [(qrest.drop k, child_hash)]⟩
        let (new_child_hash, nc1) ←
          insert_into_data_tree (prest.drop k) fieldv mid (node_count + 1)
        data_node_insert_child (p0 :: prest.take k, new_child_hash) tree nc1
    | none => do
      let node_hash ← putT encDataNode ⟨some fieldv, []⟩
      data_node_insert_child (p0 :: prest, node_hash) tree (node_count + 1)
termination_by path.length
decreasing_by
  · simp only [List.length_cons, List.length_drop]
    omega
  · simp only [List.length_cons, List.length_drop]
    omega

/-- `account_construction.rs::add_action_to_account`: look up the prior
leaf (absence means the account is initializing), run the action, fold
the overlay into the data tree in `BTreeMap` (sorted) order, and build
the new leaf body.  The flat `total_*`/`new_nodes` counters of this
snapshot are the `stats` fields. -/
def add_action_to_account (last_main : MainBlock) (account : Bytes)
    (action : Action) (prize : Nat) : M QuorumNodeBody := do
  let prior ← lookup_account last_main.block.body account
  let idt ← match prior with
    | none => do
      let h ← putT encDataNode ⟨none, []⟩
      pure (true, h)
    | some prev_node =>
      match prev_node.body.data_tree with
      | none => throwM "account has no data tree"
      | some dt => pure (false, dt)
  let a0 : AccountTransform := ⟨idt.1, account, encMainBlock last_main, []⟩
  let a1 ← run_action a0 action
  let new_stake ← AccountTransform.get_data_field_or_error rdNat a1 account field_stake
  let folded ← a1.fields_set.foldlM
    (fun (acc : Bytes × Nat) pv => insert_into_data_tree pv.1 pv.2 acc.1 acc.2)
    (idt.2, 0)
  let action_hash ← putT encAction action
  pure ⟨some (encMainBlock last_main), bytes_to_path account, [], some folded.1,
    some action_hash, prize,
    ⟨action.fee, 0, folded.2 + 1, prize, new_stake⟩⟩

/-! ## Quorum-node aggregation (`blockdata.rs::RadixHashNode for QuorumNode`)

In the children representation used throughout this development an
entry's path is the full suffix of the child relative to the parent
(what `RadixChildren::iter_entries` yields in `blockdata.rs`). -/

/-- Loop body of `blockdata.rs::QuorumNode::replace_children`: look up
the child, require its absolute path to be the parent's path followed
by the entry's suffix, always add its `stake`, and add
`fee`/`gas`/`prize`/`new_nodes` exactly when it was created at the same
`last_main`. -/
def replace_children_step (b : QuorumNodeBody) (c : HexPath × Bytes) :
    M QuorumNodeBody := do
  let child ← lookupT rdQuorumNode c.2
  if child.body.path ≠ b.path ++ c.1 then
    throwM "quorum child node has wrong path"
  else
    let st1 := { b.stats with stake := b.stats.stake + child.body.stats.stake }
    let st2 :=
      if b.last_main = child.body.last_main then
        { st1 with
          fee := st1.fee + child.body.stats.fee,
          gas := st1.gas + child.body.stats.gas,
          prize := st1.prize + child.body.stats.prize,
          new_nodes := st1.new_nodes + child.body.stats.new_nodes }
      else st1
    pure { b with stats := st2 }

/-- `blockdata.rs::QuorumNode::replace_children` (lines 238-267):
replace the children, clear the signatures, recompute the stats from
scratch (`zero` with `new_nodes = 1` and `prize = self.prize`), then
fold `replace_children_step` over the children. -/
def QuorumNode.replace_children (self : QuorumNode)
    (new_children : List (HexPath × Bytes)) : M QuorumNode := do
  let b0 : QuorumNodeBody := { self.body with
    children := new_children,
    stats := { QuorumNodeStats.zero with prize := self.body.prize, new_nodes := 1 } }
  let final ← new_children.foldlM replace_children_step b0
  pure ⟨final, none⟩

/-! ## Block verification (`verification.rs`) -/

/-- `verification.rs::quorum_node_body_score`: fee minus (prize plus
gas cost), `None` when negative. -/
def quorum_node_body_score (last_main : MainBlock) (qnb : QuorumNodeBody) :
    M (Option Nat) := do
  let opts ← lookupT rdMainOptions last_main.block.body.options
  let pos := qnb.stats.fee
  let neg := qnb.stats.prize + opts.gas_cost * qnb.stats.gas
  if pos < neg then pure none else pure (some (pos - neg))

/-- `verification.rs::verify_well_formed_quorum_node_body`. -/
def verify_well_formed_quorum_node_body (last_main : MainBlock)
    (qnb : QuorumNodeBody) : M Unit := do
  if qnb.last_main ≠ some (encMainBlock last_main) then
    throwM "bad last_main for quorum node"
  else if 64 < qnb.path.length then throwM "quorum node depth is too high"
  else if ¬ children_paths_well_formed qnb.children then
    throwM "quorum node children are malformed"
  else if 0 < qnb.path.length ∧ qnb.children.length = 1 then
    throwM "non-root quorum node has only one child"
  else do
    (if qnb.path.length = 64 then
      if qnb.children.length ≠ 0 then throwM "account node must have no children"
      else if qnb.data_tree = none then throwM "account node must have a data tree"
      else pure ()
    else
      if qnb.children.length = 0 then
        throwM "non-account quorum node must have children"
      else if qnb.data_tree ≠ none then
        throwM "non-account quorum node must have no data tree"
      else if qnb.new_action ≠ none then
        throwM "non-account quorum node must have no new action"
      else pure ())
    match ← quorum_node_body_score last_main qnb with
    | none => throwM "quorum node has invalid score"
    | some _ => pure ()

/-- `BTreeSet::insert` on the accumulated signer set. -/
def insertSet (x : Bytes) (l : List Bytes) : List Bytes :=
  if x ∈ l then l else l ++ [x]

/-- The verification loop of `verification.rs::signatures_to_signers`:
check every signature, accumulating the set of signer accounts. -/
def signers_go (msgEnc : Bytes) : List Signature → List Bytes →
    Except String (List Bytes)
  | [], acc => .ok acc
  | sg :: rest, acc =>
    if verify_sig msgEnc sg then signers_go msgEnc rest (insertSet sg.account acc)
    else .error "signature invalid"

/-- `verification.rs::signatures_to_signers`: all signatures must be
valid, and the set of signer accounts must be as large as the signature
list (no two signatures by the same account). -/
def signatures_to_signers (sigs : List Signature) (msgEnc : Bytes) :
    Except String (List Bytes) :=
  match signers_go msgEnc sigs [] with
  | .error e => .error e
  | .ok signers =>
    if signers.length ≠ sigs.length then .error "duplicate signature keys"
    else .ok signers

/-- The old-children check of
`verification.rs::verify_valid_quorum_node_body`: every old child edge
covered by the lookup suffix must survive in the new children.  The
source slices `suffix[prev_child_suffix.len()..]`, which panics when the
old child suffix is longer than `suffix`. -/
def check_old_children_present (suffix : HexPath)
    (newChildren : List (HexPath × Bytes)) :
    List (HexPath × Bytes) → Except String Unit
  | [] => .ok ()
  | (pcs, _) :: rest =>
    if isPrefixL suffix pcs then
      if suffix.length < pcs.length then .error "panic: slice index out of range"
      else if newChildren.any (fun nc => isPrefixL nc.1 (suffix.drop pcs.length)) then
        check_old_children_present suffix newChildren rest
      else .error "new node drops a child present in old node"
    else check_old_children_present suffix newChildren rest

mutual

/-- `verification.rs::verify_endorsed_quorum_node`: well-formed, and
either unsigned with no prize and valid, or carrying signatures that
satisfy some quorum.  The mutual recursion through child nodes is
fuelled (the store could contain a cyclic chain of hashes); every
cross-call consumes one unit, and any fixed depth-64 tree is covered by
a large enough fuel. -/
def verify_endorsed_quorum_node (fuel : Nat) (last_main : MainBlock)
    (node : QuorumNode) : M Unit :=
  match fuel with
  | 0 => throwM "out of fuel"
  | f + 1 => do
    verify_well_formed_quorum_node_body last_main node.body
    match node.signatures with
    | none =>
      if node.body.prize ≠ 0 then throwM "node with no signatures must have no prize"
      else verify_valid_quorum_node_body f last_main node.body
    | some sigs_hash => do
      let sigs ← lookupT (rdList rdSignature) sigs_hash
      let signers ← liftE (signatures_to_signers sigs (encQuorumNodeBody node.body))
      let quorums ← quorums_by_prev_block f last_main.block.body node.body.path
      if quorums.any (fun qt =>
          decide (qt.2 ≤ sigs.length) && qt.1.all (fun acct => decide (acct ∈ signers)))
      then pure ()
      else throwM "no quorum is satisfied"

/-- `verification.rs::verify_valid_quorum_node_body`: at depth 64 the
node must equal the recomputation of its action; otherwise old children
must survive, new children must be endorsed (unless they already are the
chain's nodes), and the stats must equal `replace_children` of the
node's own children. -/
def verify_valid_quorum_node_body (fuel : Nat) (last_main : MainBlock)
    (qnb : QuorumNodeBody) : M Unit :=
  match fuel with
  | 0 => throwM "out of fuel"
  | f + 1 => do
    verify_well_formed_quorum_node_body last_main qnb
    if qnb.path.length = 64 then
      match qnb.new_action with
      | none => throwM "new account node must have an action"
      | some ah => do
        let account ← match path_to_hash_code qnb.path with
          | some acct => pure acct
          | none => throwM "panic: path length"
        let action ← lookupT rdAction ah
        let qnb_expected ← add_action_to_account last_main account action qnb.prize
        if qnb ≠ qnb_expected then throwM "account node is not the expected one"
        else pure ()
    else do
      (match ← lookup_quorum_node_opt last_main.block.body qnb.path with
       | none => pure ()
       | some (prev_node, suffix) =>
         liftE (check_old_children_present suffix qnb.children prev_node.body.children))
      verify_children f last_main qnb.children
      let qn : QuorumNode := ⟨qnb, none⟩
      let rc ← QuorumNode.replace_children qn qnb.children
      if qn ≠ rc then throwM "quorum node is not expected based on its children"
      else pure ()

/-- The child-endorsement loop of `verify_valid_quorum_node_body`. -/
def verify_children (fuel : Nat) (last_main : MainBlock) :
    List (HexPath × Bytes) → M Unit
  | [] => pure ()
  | (_, child_hash) :: rest =>
    match fuel with
    | 0 => throwM "out of fuel"
    | f + 1 => do
      let child ← lookupT rdQuorumNode child_hash
      let old ← lookup_quorum_node_opt last_main.block.body child.body.path
      (if old ≠ some (child, []) then verify_endorsed_quorum_node f last_main child
       else pure ())
      verify_children (f + 1) last_main rest

end

/-- `verification.rs::verify_well_formed_main_block_body`. -/
def verify_well_formed_main_block_body (main : MainBlockBody) : M Unit := do
  let opts ← lookupT rdMainOptions main.options
  if opts.timestamp_period_ms = 0 ∨
      main.timestamp_ms.tmod (opts.timestamp_period_ms : Int) ≠ 0 then
    throwM "main must have timestamp that is 0 mod timestamp_period_ms"
  else
    match main.prev with
    | none =>
      if main.version ≠ 0 then throwM "genesis block must have version 0" else pure ()
    | some prev_hash => do
      let prev ← lookupT rdMainBlock prev_hash
      if main.version ≠ prev.block.body.version + 1 then
        throwM "main must advance version by 1"
      else if main.timestamp_ms ≤ prev.block.body.timestamp_ms then
        throwM "main must advance timestamp"
      else pure ()

/-- `verification.rs::verify_valid_main_block_body`. -/
def verify_valid_main_block_body (fuel : Nat) (main : MainBlockBody) : M Unit := do
  verify_well_formed_main_block_body main
  let top ← lookupT rdQuorumNode main.tree
  if top.body.path.length ≠ 0 then throwM "top quorum node must have empty path"
  else
    match main.prev with
    | none => pure ()
    | some prev_hash => do
      let prev ← lookupT rdMainBlock prev_hash
      if main.options ≠ prev.block.body.options then throwM "options must not change"
      else if main.tree ≠ prev.block.body.tree then
        verify_endorsed_quorum_node fuel prev top
      else pure ()

/-- `verification.rs::verify_endorsed_pre_signed_main_block`: the body
must be well-formed and carry at least
`opts.main_block_signatures_required` valid signatures by the signer
accounts selected from the previous block. -/
def verify_endorsed_pre_signed_main_block (fuel : Nat)
    (main : PreSignedMainBlock) : M Unit := do
  match main.body.prev with
  | none => throwM "genesis block is never endorsed"
  | some prev_hash => do
    let prev ← lookupT rdMainBlock prev_hash
    verify_well_formed_main_block_body main.body
    let signers ← liftE (signatures_to_signers main.signatures (encMainBlockBody main.body))
    let ms ← miner_and_signers_by_prev_block fuel prev
    let count := ms.2.countP (fun signer => signer ∈ signers)
    let opts ← lookupT rdMainOptions main.body.options
    if count < opts.main_block_signatures_required then
      throwM "not enough main signatures"
    else pure ()

/-- `verification.rs::verify_endorsed_main_block` (lines 291-308),
translated as executed.  NOTE: at source line 299 the statement
`verify_endorsed_pre_signed_main_block(hl, &main.block);` calls an
`async fn` without `.await` and discards the returned future, so the
pre-signed endorsement check never runs and cannot fail the caller; the
translation accordingly contains no such check.  Only the miner
signature is verified. -/
def verify_endorsed_main_block (fuel : Nat) (main : MainBlock) : M Unit := do
  match main.block.body.prev with
  | none => throwM "genesis block is never endorsed"
  | some prev_hash => do
    let prev ← lookupT rdMainBlock prev_hash
    let signers ← liftE
      (signatures_to_signers [main.signature] (encPreSignedMainBlock main.block))
    let ms ← miner_and_signers_by_prev_block fuel prev
    if ms.1 ∉ signers then throwM "main must be signed by miner" else pure ()

/-- `verification.rs::verify_valid_endorsed_main_block`. -/
def verify_valid_endorsed_main_block (fuel : Nat) (main : MainBlock) : M Unit := do
  verify_valid_main_block_body fuel main.block.body
  verify_endorsed_main_block fuel main

/-! ## Block construction (`construction.rs`) -/

/-- `construction.rs::next_main_block_body`.  The `%` of an `i64` by
zero panics in Rust; the panic is modelled as an error tested first
(the source would reach it while evaluating the condition). -/
def next_main_block_body (fuel : Nat) (timestamp_ms : Int)
    (prev_hash top_hash : Bytes) : M MainBlockBody := do
  let prev ← lookupT rdMainBlock prev_hash
  let opts ← lookupT rdMainOptions prev.block.body.options
  if opts.timestamp_period_ms = 0 then throwM "panic: remainder by zero"
  else if timestamp_ms.tmod (opts.timestamp_period_ms : Int) ≠ 0 ∨
      timestamp_ms ≤ prev.block.body.timestamp_ms then
    throwM "invalid timestamp in next_main_block_body"
  else do
    let top ← lookupT rdQuorumNode top_hash
    if top.body.path.length ≠ 0 then
      throwM "next_main_block_body must be called with root QuorumNode"
    else do
      (if top_hash ≠ prev.block.body.tree then
        verify_endorsed_quorum_node fuel prev top
      else pure ())
      pure ⟨some prev_hash, prev.block.body.version + 1, timestamp_ms, top_hash,
        prev.block.body.options⟩

/-! ## Concrete scenarios

Small concrete stores used to evaluate the translated functions on the
inputs the claims are about (witnesses and counterexamples). -/

deriving instance DecidableEq for Except

/-- A 64-digit path of zeros: the account path used by the concrete
quorum leaves below. -/
def p64x : HexPath := List.replicate 64 0

/-- A depth-64 (account) quorum leaf with stake 1 at `p64x`. -/
def leafT : QuorumNode :=
  ⟨⟨none, p64x, [], none, none, 0, ⟨0, 0, 1, 0, 1⟩⟩, none⟩

/-- An internal quorum node (empty path) whose single child is `leafT`;
its `stats.stake` equals the sum (1) of its children's stakes. -/
def nodeQ : QuorumNode :=
  ⟨⟨none, [], [(p64x, encQuorumNode leafT)], none, none, 0, ⟨0, 0, 2, 0, 1⟩⟩, none⟩

/-- Store holding `leafT`, enough for the `stake_indexed_account` walk. -/
def storeC2 : Store := [encQuorumNode leafT]

/-- Minimal options: every period 1, one main-block signer required. -/
def optsX : MainOptions := ⟨0, 0, 1, 1, 1, 1, 1, 64, [(1, 1)]⟩

/-- Genesis-style body whose tree is the depth-64 node `leafT` (nothing
in the endorsement path checks the top node's shape). -/
def bodyB0 : MainBlockBody := ⟨none, 0, 0, encQuorumNode leafT, encMainOptions optsX⟩

/-- The previous main block (its own signatures are never checked). -/
def blockP : MainBlock := ⟨⟨bodyB0, []⟩, ⟨[], []⟩⟩

/-- The successor body: version 1, next timestamp, same options. -/
def bodyB1 : MainBlockBody :=
  ⟨some (encMainBlock blockP), 1, 1, encQuorumNode leafT, encMainOptions optsX⟩

/-- The successor in pre-signed form with NO signer signatures. -/
def psbX : PreSignedMainBlock := ⟨bodyB1, []⟩

/-- The public key whose account is the account of `leafT`
(`path_to_hash_code p64x`). -/
def minerKey : Bytes := List.replicate 32 0

/-- The successor main block: unsigned by signers, signed by the miner. -/
def mainX : MainBlock := ⟨psbX, mkSig minerKey (encPreSignedMainBlock psbX)⟩

/-- Store for the main-block endorsement scenario. -/
def storeC1 : Store := [encMainBlock blockP, encMainOptions optsX, encQuorumNode leafT]

/-- Account id of the first concrete account (first byte 0x11). -/
def acctA : Bytes := 17 :: List.replicate 31 0

/-- Account id of the second concrete account (first byte 0x22). -/
def acctB : Bytes := 34 :: List.replicate 31 0

/-- Account A's data: a root-level field holding `[10]`. -/
def dnA : DataNode := ⟨some [10], []⟩

/-- Account B's data: a root-level field holding `[20]`. -/
def dnB : DataNode := ⟨some [20], []⟩

/-- Account A's quorum leaf. -/
def leafA : QuorumNode :=
  ⟨⟨none, bytes_to_path acctA, [], some (encDataNode dnA), none, 0, ⟨0, 0, 1, 0, 0⟩⟩, none⟩

/-- Account B's quorum leaf. -/
def leafB : QuorumNode :=
  ⟨⟨none, bytes_to_path acctB, [], some (encDataNode dnB), none, 0, ⟨0, 0, 1, 0, 0⟩⟩, none⟩

/-- Quorum root holding accounts A and B. -/
def rootC3 : QuorumNode :=
  ⟨⟨none, [], [(bytes_to_path acctA, encQuorumNode leafA),
    (bytes_to_path acctB, encQuorumNode leafB)], none, none, 0, ⟨0, 0, 3, 0, 0⟩⟩, none⟩

/-- Main block body over the two-account tree. -/
def bodyC3 : MainBlockBody := ⟨none, 0, 0, encQuorumNode rootC3, encMainOptions optsX⟩

/-- Main block over the two-account tree. -/
def mbC3 : MainBlock := ⟨⟨bodyC3, []⟩, ⟨[], []⟩⟩

/-- Store for the two-account read scenario. -/
def storeC3 : Store :=
  [encMainBlock mbC3, encQuorumNode rootC3, encQuorumNode leafA, encQuorumNode leafB,
   encDataNode dnA, encDataNode dnB, encMainOptions optsX]

/-- A transform running on behalf of account B against `mbC3`. -/
def atC3 : AccountTransform := ⟨false, acctB, encMainBlock mbC3, []⟩

/-- Modelled from the spec: `get_data_field_bytes(acct, path)` resolves
the base read via `lookup_account` against the given `acct` (spec §4.F),
not against `this_account`; used to exhibit the divergence of the
source's `get_data_field_bytes`. -/
def spec_resolve_read (a : AccountTransform) (acct : Bytes) (p : HexPath) :
    M (Option Bytes) := do
  match (if acct = a.this_account then mapGet a.fields_set p else none) with
  | some x => pure (some x)
  | none => do
    let main ← lookupT rdMainBlock a.last_main
    match ← lookup_account main.block.body acct with
    | some acct_node => lookup_data_in_account acct_node p
    | none => pure none

/-- Sender account id for the send scenarios (first byte 0x11). -/
def acctS : Bytes := 17 :: List.replicate 31 0

/-- Recipient account id for the send scenarios. -/
def recipC5 : Bytes := 34 :: List.replicate 31 0

/-- The sender's balance leaf: 100 units. -/
def dnBal : DataNode := ⟨some (wrNat 100), []⟩

/-- The sender's public-key leaf. -/
def dnPk : DataNode := ⟨some acctS, []⟩

/-- The sender's data tree: exactly the `balance` and `public_key`
fields an initialized account carries (the `stake` write lands on the
`balance` path). -/
def dataS : DataNode :=
  ⟨none, [(field_balance.path, encDataNode dnBal), (field_public_key.path, encDataNode dnPk)]⟩

/-- The sender's quorum leaf. -/
def leafS : QuorumNode :=
  ⟨⟨none, bytes_to_path acctS, [], some (encDataNode dataS), none, 0, ⟨0, 0, 1, 0, 10⟩⟩, none⟩

/-- Quorum root holding the sender. -/
def rootS : QuorumNode :=
  ⟨⟨none, [], [(bytes_to_path acctS, encQuorumNode leafS)], none, none, 0,
    ⟨0, 0, 2, 0, 10⟩⟩, none⟩

/-- Main block over the sender's tree. -/
def mb5 : MainBlock :=
  ⟨⟨⟨none, 0, 0, encQuorumNode rootS, encMainOptions optsX⟩, []⟩, ⟨[], []⟩⟩

/-- The send action with its signature argument zeroed (the form that
is actually signed). -/
def actZ5 : Action :=
  ⟨encMainBlock mb5, 5, sendCmd,
    [wrBytes recipC5, wrNat 25, wrOpt wrBytes none, wrBytes [], []]⟩

/-- The sender's signature over `actZ5`. -/
def sig5 : Signature := mkSig acctS (encAction actZ5)

/-- A well-formed send action: recipient, amount 25, no init spec,
empty message, fee 5, valid self-excluding signature. -/
def act5 : Action :=
  ⟨encMainBlock mb5, 5, sendCmd,
    [wrBytes recipC5, wrNat 25, wrOpt wrBytes none, wrBytes [], encSignature sig5]⟩

/-- The `SendInfo` that `run_action` constructs for `act5`. -/
def si5 : SendInfo := ⟨encMainBlock mb5, acctS, some recipC5, 25, none, []⟩

/-- The overspending action (amount 200) with signature zeroed. -/
def actZ9 : Action :=
  ⟨encMainBlock mb5, 5, sendCmd,
    [wrBytes recipC5, wrNat 200, wrOpt wrBytes none, wrBytes [], []]⟩

/-- The sender's signature over `actZ9`. -/
def sig9 : Signature := mkSig acctS (encAction actZ9)

/-- The overspending send action: amount 200 against balance 100. -/
def act9 : Action :=
  ⟨encMainBlock mb5, 5, sendCmd,
    [wrBytes recipC5, wrNat 200, wrOpt wrBytes none, wrBytes [], encSignature sig9]⟩

/-- The sender's transform before running an action. -/
def at5 : AccountTransform := ⟨false, acctS, encMainBlock mb5, []⟩

/-- Store for the send scenarios. -/
def store5 : Store :=
  [encMainBlock mb5, encQuorumNode rootS, encQuorumNode leafS, encDataNode dataS,
   encDataNode dnBal, encDataNode dnPk]

/-- A signature by key `[7]` over message `[8]` (used twice to form a
duplicate-signer list). -/
def sigD : Signature := mkSig [7] [8]

/-- The stored signature list `[sigD, sigD]`. -/
def sigshD : Bytes := wrList encSignature [sigD, sigD]

/-- A quorum node whose signature list is `[sigD, sigD]`. -/
def nodeD : QuorumNode :=
  ⟨⟨none, [], [], none, none, 0, QuorumNodeStats.zero⟩, some sigshD⟩

/-- Store holding the duplicate signature list. -/
def storeD : Store := [sigshD]

/-- The pure per-child stats update performed by
`replace_children_step` once the child value is in hand: stake is added
unconditionally, the iteration-scoped counters only when the child's
`last_main` matches `lm0`. -/
def stats_plus_child (lm0 : Option Bytes) (st : QuorumNodeStats)
    (pc : HexPath × QuorumNode) : QuorumNodeStats :=
  let st1 := { st with stake := st.stake + pc.2.body.stats.stake }
  if lm0 = pc.2.body.last_main then
    { st1 with
      fee := st1.fee + pc.2.body.stats.fee,
      gas := st1.gas + pc.2.body.stats.gas,
      prize := st1.prize + pc.2.body.stats.prize,
      new_nodes := st1.new_nodes + pc.2.body.stats.new_nodes }
  else st1

/-! ### Pure data-tree model

A shallow pure model of the radix data tree, mirroring
`insert_into_data_tree` and `rh_follow_path`, used to state and prove
the insert round-trip property. -/

/-- Pure radix data tree: a `DataNode` whose child hashes are replaced
by the subtrees they encode.  Verification model for the insert
round-trip. -/

inductive DTree where
  | node : Option Bytes → List (HexPath × DTree) → DTree

/-- Field of the root node. -/
def DTree.fieldv : DTree → Option Bytes
  | .node f _ => f

/-- Children of the root node. -/
def DTree.children : DTree → List (HexPath × DTree)
  | .node _ cs => cs

mutual

/-- Canonical encoding (= hash in the perfect-digest model) of a pure
tree. -/
def encTree : DTree → Bytes
  | .node f cs => encDataNode ⟨f, encChildren cs⟩

/-- Encodings of a child list. -/
def encChildren : List (HexPath × DTree) → List (HexPath × Bytes)
  | [] => []
  | (p, t) :: rest => (p, encTree t) :: encChildren rest

end

/-- The `DataNode` a pure tree denotes (children replaced by their
hashes, hashes being canonical encodings here). -/
def dataNodeOf (t : DTree) : DataNode := ⟨t.fieldv, encChildren t.children⟩

/-- Every node of the pure tree is present, by its encoding, in the
store. -/
inductive TreeStored (s : Store) : DTree → Prop where
  | mk : ∀ f cs, encTree (.node f cs) ∈ s → (∀ pc ∈ cs, TreeStored s pc.2) →
      TreeStored s (.node f cs)

/-- Well-formed tree: every child list passes
`children_paths_well_formed` (sorted, distinct, nonempty suffixes). -/
inductive WFT : DTree → Prop where
  | mk : ∀ f cs, children_paths_well_formed cs = true → (∀ pc ∈ cs, WFT pc.2) →
      WFT (.node f cs)

/-- Pure mirror of the child scan `find_child_by_head` inside
`insert_into_data_tree`; the empty-suffix panic of the source becomes
`none` and is ruled out by `WFT`. -/
def findP (p0 : Nat) : List (HexPath × DTree) → Option (Nat × HexPath × DTree)
  | [] => none
  | (p, t) :: rest =>
    match p with
    | [] => none
    | q0 :: qrest => if q0 = p0 then some (q0, qrest, t) else findP p0 rest

/-- Pure mirror of `account_construction.rs::insert_into_data_tree`,
case for case. -/
def insertT : HexPath → Bytes → DTree → Option DTree
  | [], v, .node _ cs => some (.node (some v) cs)
  | p0 :: prest, v, .node f cs =>
    match findP p0 cs with
    | some (q0, qrest, child) =>
      if isPrefixL (q0 :: qrest) (p0 :: prest) then
        match insertT (prest.drop qrest.length) v child with
        | some child' => (insert_child (q0 :: qrest, child') cs).map (DTree.node f)
        | none => none
      else
        match insertT (prest.drop (longest_prefix_length prest qrest)) v
            (.node none [(qrest.drop (longest_prefix_length prest qrest), child)]) with
        | some mid' =>
          (insert_child (p0 :: prest.take (longest_prefix_length prest qrest), mid') cs).map
            (DTree.node f)
        | none => none
    | none =>
      (insert_child (p0 :: prest, .node (some v) []) cs).map (DTree.node f)
termination_by p _ _ => p.length
decreasing_by
  · simp only [List.length_cons, List.length_drop]
    omega
  · simp only [List.length_cons, List.length_drop]
    omega

/-- Pure mirror of `queries.rs::rh_follow_path` on data nodes: `pref`
is the consumed part of the pending edge. -/
def followP : DTree → HexPath → HexPath → Option (DTree × HexPath)
  | t, pref, [] => some (t, pref)
  | t, pref, d :: rest =>
    match t.children.find? (fun pc => (pref ++ [d]) == pc.1) with
    | some pc => followP pc.2 [] rest
    | none =>
      if t.children.any (fun pc => isPrefixL (pref ++ [d]) pc.1) then
        followP t (pref ++ [d]) rest
      else none

/-- Value the tree stores at `q`: the field at an exact hit (empty
residual edge). -/
def tgetP (t : DTree) (q : HexPath) : Option Bytes :=
  match followP t [] q with
  | some (t', []) => t'.fieldv
  | _ => none

/-- Reference reader that descends whole edges at a time; proved equal
to `tgetP` on well-formed trees. -/
def getSpec : DTree → HexPath → Option Bytes
  | t, [] => t.fieldv
  | t, d :: rest =>
    match t.children.find? (fun pc => isPrefixL pc.1 (d :: rest)) with
    | some pc =>
      match pc.1 with
      | [] => none
      | _ :: qrest => getSpec pc.2 (rest.drop qrest.length)
    | none => none
termination_by _ p => p.length
decreasing_by
  simp only [List.length_cons, List.length_drop]
  omega

/-- Field stored at path `q` under the data-tree root `rootH`: follow
the path with `data_node_follow_path` and take the field on an exact
hit, exactly as `queries.rs::lookup_data_in_account` reads a field
once the account is resolved. -/
def data_tree_get (s : Store) (rootH : Bytes) (q : HexPath) : Option Bytes :=
  match (do
    let top ← lookupT rdDataNode rootH
    data_node_follow_path top q : M (DataNode × HexPath)) s with
  | (.ok (dn, []), _) => dn.field
  | _ => none


/-- First child whose suffix starts with the digit `d`. -/
def hdc {α : Type} (d : Nat) (cs : List (HexPath × α)) : Option (HexPath × α) :=
  cs.find? (fun pc => pc.1.head? == some d)

/-- Generalization of `tgetP` over the pending edge prefix. -/
def getFol (t : DTree) (pref q : HexPath) : Option Bytes :=
  match followP t pref q with
  | some (t', []) => t'.fieldv
  | _ => none


/-! ## General lemmas -/

theorem isPrefixL_iff (pre full : List Nat) :
    isPrefixL pre full = true ↔ pre <+: full := by
  induction pre generalizing full with
  | nil => simp [isPrefixL]
  | cons x xs ih =>
    cases full with
    | nil => simp [isPrefixL]
    | cons y ys =>
      have h := ih ys
      simp only [isPrefixL, Bool.and_eq_true, decide_eq_true_eq] at h
      simp only [isPrefixL, List.zip_cons_cons, List.all_cons, List.length_cons,
        Bool.and_eq_true, beq_iff_eq, decide_eq_true_eq, Nat.add_le_add_iff_right,
        List.cons_prefix_cons]
      constructor
      · rintro ⟨h1, rfl, h3⟩
        exact ⟨rfl, h.mp ⟨h1, h3⟩⟩
      · rintro ⟨rfl, h2⟩
        obtain ⟨h1, h3⟩ := h.mpr h2
        exact ⟨h1, rfl, h3⟩

@[simp] theorem rdNat_wrNat (n : Nat) (rest : Bytes) :
    rdNat (wrNat n ++ rest) = some (n, rest) := rfl

@[simp] theorem rdInt_wrInt (i : Int) (rest : Bytes) :
    rdInt (wrInt i ++ rest) = some (i, rest) := by
  cases i <;> rfl

@[simp] theorem rdBytes_wrBytes (bs rest : Bytes) :
    rdBytes (wrBytes bs ++ rest) = some (bs, rest) := by
  simp [wrBytes, rdBytes, List.take_append, List.drop_append]

@[simp] theorem rdOpt_wrOpt (rd : Bytes → Option (α × Bytes)) (wr : α → Bytes)
    (h : ∀ a rest, rd (wr a ++ rest) = some (a, rest)) (o : Option α) (rest : Bytes) :
    rdOpt rd (wrOpt wr o ++ rest) = some (o, rest) := by
  cases o with
  | none => rfl
  | some a => simp [wrOpt, rdOpt, h]

theorem rdCount_wrList (rd : Bytes → Option (α × Bytes)) (wr : α → Bytes)
    (h : ∀ a rest, rd (wr a ++ rest) = some (a, rest)) (xs : List α) (rest : Bytes) :
    rdCount rd xs.length ((xs.map wr).flatten ++ rest) = some (xs, rest) := by
  induction xs with
  | nil => rfl
  | cons x xs ih =>
    simp only [List.length_cons, List.map_cons, List.flatten_cons, List.append_assoc,
      rdCount, h, Option.bind_eq_bind, Option.some_bind, ih]

@[simp] theorem rdList_wrList (rd : Bytes → Option (α × Bytes)) (wr : α → Bytes)
    (h : ∀ a rest, rd (wr a ++ rest) = some (a, rest)) (xs : List α) (rest : Bytes) :
    rdList rd (wrList wr xs ++ rest) = some (xs, rest) := by
  simp only [wrList, rdList, List.cons_append, rdNat, Option.bind_eq_bind,
    Option.some_bind]
  exact rdCount_wrList rd wr h xs rest

@[simp] theorem rdOpt_rdBytes_wr (o : Option Bytes) (rest : Bytes) :
    rdOpt rdBytes (wrOpt wrBytes o ++ rest) = some (o, rest) :=
  rdOpt_wrOpt rdBytes wrBytes (fun a rest => rdBytes_wrBytes a rest) o rest

@[simp] theorem rdChild_wrChild (c : HexPath × Bytes) (rest : Bytes) :
    rdChild (wrChild c ++ rest) = some (c, rest) := by
  simp [rdChild, wrChild, List.append_assoc]

@[simp] theorem rdList_wrChild (cs : List (HexPath × Bytes)) (rest : Bytes) :
    rdList rdChild (wrList wrChild cs ++ rest) = some (cs, rest) :=
  rdList_wrList rdChild wrChild (fun a rest => rdChild_wrChild a rest) cs rest

@[simp] theorem rdSignature_enc (s : Signature) (rest : Bytes) :
    rdSignature (encSignature s ++ rest) = some (s, rest) := by
  simp [rdSignature, encSignature, List.append_assoc]

@[simp] theorem rdList_encSignature (ss : List Signature) (rest : Bytes) :
    rdList rdSignature (wrList encSignature ss ++ rest) = some (ss, rest) :=
  rdList_wrList rdSignature encSignature (fun a rest => rdSignature_enc a rest) ss rest

@[simp] theorem rdList_wrBytes (xs : List Bytes) (rest : Bytes) :
    rdList rdBytes (wrList wrBytes xs ++ rest) = some (xs, rest) :=
  rdList_wrList rdBytes wrBytes (fun a rest => rdBytes_wrBytes a rest) xs rest

@[simp] theorem rdStats_enc (st : QuorumNodeStats) (rest : Bytes) :
    rdStats (encStats st ++ rest) = some (st, rest) := by
  simp [rdStats, encStats, wrNat, rdNat, List.append_assoc]

@[simp] theorem rdSizeThreshold_wr (st : Nat × Nat) (rest : Bytes) :
    rdSizeThreshold (wrSizeThreshold st ++ rest) = some (st, rest) := by
  simp [rdSizeThreshold, wrSizeThreshold, wrNat, rdNat, List.append_assoc]

@[simp] theorem rdList_wrSizeThreshold (xs : List (Nat × Nat)) (rest : Bytes) :
    rdList rdSizeThreshold (wrList wrSizeThreshold xs ++ rest) = some (xs, rest) :=
  rdList_wrList rdSizeThreshold wrSizeThreshold
    (fun a rest => rdSizeThreshold_wr a rest) xs rest

@[simp] theorem rdQuorumNodeBody_enc (b : QuorumNodeBody) (rest : Bytes) :
    rdQuorumNodeBody (encQuorumNodeBody b ++ rest) = some (b, rest) := by
  simp [rdQuorumNodeBody, encQuorumNodeBody, List.append_assoc]

@[simp] theorem rdQuorumNode_enc (qn : QuorumNode) (rest : Bytes) :
    rdQuorumNode (encQuorumNode qn ++ rest) = some (qn, rest) := by
  simp [rdQuorumNode, encQuorumNode, List.append_assoc]

@[simp] theorem rdDataNode_enc (dn : DataNode) (rest : Bytes) :
    rdDataNode (encDataNode dn ++ rest) = some (dn, rest) := by
  simp [rdDataNode, encDataNode, List.append_assoc]

@[simp] theorem rdMainOptions_enc (o : MainOptions) (rest : Bytes) :
    rdMainOptions (encMainOptions o ++ rest) = some (o, rest) := by
  simp [rdMainOptions, encMainOptions, wrNat, rdNat, List.append_assoc]

@[simp] theorem rdMainBlockBody_enc (b : MainBlockBody) (rest : Bytes) :
    rdMainBlockBody (encMainBlockBody b ++ rest) = some (b, rest) := by
  simp [rdMainBlockBody, encMainBlockBody, List.append_assoc]

@[simp] theorem rdPreSignedMainBlock_enc (b : PreSignedMainBlock) (rest : Bytes) :
    rdPreSignedMainBlock (encPreSignedMainBlock b ++ rest) = some (b, rest) := by
  simp [rdPreSignedMainBlock, encPreSignedMainBlock, List.append_assoc]

@[simp] theorem rdMainBlock_enc (m : MainBlock) (rest : Bytes) :
    rdMainBlock (encMainBlock m ++ rest) = some (m, rest) := by
  simp [rdMainBlock, encMainBlock, List.append_assoc]

@[simp] theorem rdAction_enc (a : Action) (rest : Bytes) :
    rdAction (encAction a ++ rest) = some (a, rest) := by
  simp [rdAction, encAction, List.append_assoc]

@[simp] theorem rdSendInfo_enc (si : SendInfo) (rest : Bytes) :
    rdSendInfo (encSendInfo si ++ rest) = some (si, rest) := by
  simp [rdSendInfo, encSendInfo, List.append_assoc]

/-- Whole-string decoding inverts encoding. -/
theorem decOf_enc (rd : Bytes → Option (α × Bytes)) (wr : α → Bytes)
    (h : ∀ a rest, rd (wr a ++ rest) = some (a, rest)) (v : α) :
    decOf rd (wr v) = some v := by
  have := h v []
  simp only [List.append_nil] at this
  simp [decOf, this]

@[simp] theorem decOf_encQuorumNode (qn : QuorumNode) :
    decOf rdQuorumNode (encQuorumNode qn) = some qn :=
  decOf_enc rdQuorumNode encQuorumNode (fun a rest => rdQuorumNode_enc a rest) qn

@[simp] theorem decOf_encDataNode (dn : DataNode) :
    decOf rdDataNode (encDataNode dn) = some dn :=
  decOf_enc rdDataNode encDataNode (fun a rest => rdDataNode_enc a rest) dn

@[simp] theorem decOf_encMainOptions (o : MainOptions) :
    decOf rdMainOptions (encMainOptions o) = some o :=
  decOf_enc rdMainOptions encMainOptions (fun a rest => rdMainOptions_enc a rest) o

@[simp] theorem decOf_encMainBlock (m : MainBlock) :
    decOf rdMainBlock (encMainBlock m) = some m :=
  decOf_enc rdMainBlock encMainBlock (fun a rest => rdMainBlock_enc a rest) m

@[simp] theorem decOf_encMainBlockBody (b : MainBlockBody) :
    decOf rdMainBlockBody (encMainBlockBody b) = some b :=
  decOf_enc rdMainBlockBody encMainBlockBody (fun a rest => rdMainBlockBody_enc a rest) b

@[simp] theorem decOf_encAction (a : Action) :
    decOf rdAction (encAction a) = some a :=
  decOf_enc rdAction encAction (fun a rest => rdAction_enc a rest) a

@[simp] theorem decOf_encSendInfo (si : SendInfo) :
    decOf rdSendInfo (encSendInfo si) = some si :=
  decOf_enc rdSendInfo encSendInfo (fun a rest => rdSendInfo_enc a rest) si

@[simp] theorem decOf_encU128 (n : Nat) :
    decOf rdNat (encU128 n) = some n := rfl

@[simp] theorem decOf_encBool (b : Bool) :
    decOf rdBool (encBool b) = some b := by
  cases b <;> rfl

@[simp] theorem decOf_encSignatureList (ss : List Signature) :
    decOf (rdList rdSignature) (wrList encSignature ss) = some ss :=
  decOf_enc (rdList rdSignature) (wrList encSignature)
    (fun a rest => rdList_encSignature a rest) ss

@[simp] theorem pure_apply (a : α) (s : Store) :
    (pure a : M α) s = (.ok a, s) := rfl

@[simp] theorem bind_apply (m : M α) (f : α → M β) (s : Store) :
    (m >>= f) s =
      match m s with
      | (.ok a, s1) => f a s1
      | (.error e, s1) => (.error e, s1) := rfl

@[simp] theorem throwM_apply (e : String) (s : Store) :
    (throwM e : M α) s = (.error e, s) := rfl

@[simp] theorem lookup_bytes_mem (h : Bytes) (s : Store) (hm : h ∈ s) :
    lookup_bytes h s = (.ok h, s) := by
  simp [lookup_bytes, hm]

@[simp] theorem put_bytes_apply (bs : Bytes) (s : Store) :
    put_bytes bs s = (.ok bs, if bs ∈ s then s else bs :: s) := rfl

theorem lookupT_mem (rd : Bytes → Option (α × Bytes)) (h : Bytes) (s : Store)
    (hm : h ∈ s) (v : α) (hd : decOf rd h = some v) :
    lookupT rd h s = (.ok v, s) := by
  simp [lookupT, lookup_bytes, hm, hd]

theorem mmono_pure (a : α) : MMono (pure a : M α) := by
  intro s b hb; simpa using hb

theorem mmono_throw (e : String) : MMono (throwM e : M α) := by
  intro s b hb; simpa [throwM] using hb

theorem mmono_lookup_bytes (h : Bytes) : MMono (lookup_bytes h) := by
  intro s b hb; simpa [lookup_bytes] using hb

theorem mmono_put_bytes (bs : Bytes) : MMono (put_bytes bs) := by
  intro s b hb
  simp only [put_bytes]
  split
  · exact hb
  · exact List.mem_cons_of_mem _ hb

theorem mmono_bind {m : M α} {f : α → M β} (hm : MMono m)
    (hf : ∀ a, MMono (f a)) : MMono (m >>= f) := by
  intro s b hb
  simp only [bind_apply]
  cases hms : m s with
  | mk r s1 =>
    have h1 : b ∈ s1 := by
      have := hm s b hb
      rw [hms] at this
      exact this
    cases r with
    | ok a => exact hf a s1 b h1
    | error e => exact h1

theorem mmono_lookupT (rd : Bytes → Option (α × Bytes)) (h : Bytes) :
    MMono (lookupT rd h) := by
  refine mmono_bind (mmono_lookup_bytes h) ?_
  intro a
  cases hd : decOf rd a
  · exact mmono_throw _
  · exact mmono_pure _

theorem mmono_putT (enc : α → Bytes) (v : α) : MMono (putT enc v) :=
  mmono_put_bytes _

theorem mreads_pure (a : α) : MReads (pure a : M α) := fun _ => rfl

theorem mreads_throw (e : String) : MReads (throwM e : M α) := fun _ => rfl

theorem mreads_lookup_bytes (h : Bytes) : MReads (lookup_bytes h) := fun _ => rfl

theorem mreads_bind {m : M α} {f : α → M β} (hm : MReads m)
    (hf : ∀ a, MReads (f a)) : MReads (m >>= f) := by
  intro s
  simp only [bind_apply]
  cases hms : m s with
  | mk r s1 =>
    have h1 : s1 = s := by
      have := hm s
      rw [hms] at this
      exact this
    cases r with
    | ok a => rw [hf a s1, h1]
    | error e => exact h1

theorem mreads_lookupT (rd : Bytes → Option (α × Bytes)) (h : Bytes) :
    MReads (lookupT rd h) := by
  refine mreads_bind (mreads_lookup_bytes h) ?_
  intro a
  cases hd : decOf rd a
  · exact mreads_throw _
  · exact mreads_pure _

theorem MReads.mono {m : M α} (h : MReads m) : MMono m := by
  intro s b hb
  rw [h s]
  exact hb

@[simp] theorem liftE_apply (e : Except String α) (s : Store) :
    liftE e s = (e, s) := rfl

theorem mreads_liftE (e : Except String α) : MReads (liftE e) := fun _ => rfl

theorem insertSet_nodup (x : Bytes) (l : List Bytes) (h : l.Nodup) :
    (insertSet x l).Nodup := by
  unfold insertSet
  split
  · exact h
  · next hx =>
    simp [List.nodup_append, h, hx]

theorem mem_insertSet {y x : Bytes} {l : List Bytes} (h : y ∈ insertSet x l) :
    y = x ∨ y ∈ l := by
  unfold insertSet at h
  split at h
  · exact Or.inr h
  · rcases List.mem_append.mp h with h1 | h1
    · exact Or.inr h1
    · simp at h1
      exact Or.inl h1

theorem signers_go_ok (m : Bytes) (sigs : List Signature) (acc out : List Bytes)
    (h : signers_go m sigs acc = .ok out) :
    out = sigs.foldl (fun a sg => insertSet sg.account a) acc := by
  induction sigs generalizing acc with
  | nil =>
    simp only [signers_go] at h
    cases h
    rfl
  | cons sg rest ih =>
    simp only [signers_go] at h
    split at h
    · exact ih _ h
    · cases h

theorem foldl_insertSet_nodup (sigs : List Signature) (acc : List Bytes)
    (h : acc.Nodup) :
    (sigs.foldl (fun a sg => insertSet sg.account a) acc).Nodup := by
  induction sigs generalizing acc with
  | nil => exact h
  | cons sg rest ih => exact ih _ (insertSet_nodup _ _ h)

theorem mem_foldl_insertSet (sigs : List Signature) (acc : List Bytes) (y : Bytes)
    (h : y ∈ sigs.foldl (fun a sg => insertSet sg.account a) acc) :
    y ∈ acc ∨ y ∈ sigs.map Signature.account := by
  induction sigs generalizing acc with
  | nil => exact Or.inl h
  | cons sg rest ih =>
    rcases ih _ h with h1 | h1
    · rcases mem_insertSet h1 with h2 | h2
      · exact Or.inr (by simp [h2])
      · exact Or.inl h2
    · exact Or.inr (by simp [h1])

theorem dedup_length_lt_of_not_nodup (l : List Bytes) (h : ¬ l.Nodup) :
    l.dedup.length < l.length := by
  rcases Nat.lt_or_ge l.dedup.length l.length with h1 | h1
  · exact h1
  · exfalso
    have hsub := List.dedup_sublist l
    have hle := hsub.length_le
    have heq : l.dedup = l := hsub.eq_of_length (Nat.le_antisymm hle h1)
    exact h (heq ▸ l.nodup_dedup)

theorem signatures_to_signers_dup (sigs : List Signature) (m : Bytes)
    (hdup : ¬ (sigs.map Signature.account).Nodup) :
    ∃ e, signatures_to_signers sigs m = .error e := by
  unfold signatures_to_signers
  cases hgo : signers_go m sigs [] with
  | error e => exact ⟨e, rfl⟩
  | ok out =>
    have hout := signers_go_ok m sigs [] out hgo
    have hnd : out.Nodup := hout ▸ foldl_insertSet_nodup sigs [] List.nodup_nil
    have hsub : ∀ y ∈ out, y ∈ sigs.map Signature.account := by
      intro y hy
      rcases mem_foldl_insertSet sigs [] y (hout ▸ hy) with h1 | h1
      · cases h1
      · exact h1
    have hlen : out.length < sigs.length := by
      calc out.length = out.toFinset.card := (List.toFinset_card_of_nodup hnd).symm
        _ ≤ (sigs.map Signature.account).toFinset.card := by
            apply Finset.card_le_card
            intro y hy
            exact List.mem_toFinset.mpr (hsub y (List.mem_toFinset.mp hy))
        _ = (sigs.map Signature.account).dedup.length := List.card_toFinset _
        _ < (sigs.map Signature.account).length :=
            dedup_length_lt_of_not_nodup _ hdup
        _ = sigs.length := List.length_map _ _
    exact ⟨"duplicate signature keys", by simp [Nat.ne_of_lt hlen]⟩

theorem mreads_quorum_node_body_score (lm : MainBlock) (qnb : QuorumNodeBody) :
    MReads (quorum_node_body_score lm qnb) := by
  unfold quorum_node_body_score
  refine mreads_bind (mreads_lookupT _ _) ?_
  intro opts
  dsimp only
  split
  · exact mreads_pure _
  · exact mreads_pure _

theorem mreads_verify_well_formed_quorum_node_body (lm : MainBlock)
    (qnb : QuorumNodeBody) :
    MReads (verify_well_formed_quorum_node_body lm qnb) := by
  unfold verify_well_formed_quorum_node_body
  split
  · exact mreads_throw _
  · split
    · exact mreads_throw _
    · split
      · exact mreads_throw _
      · split
        · exact mreads_throw _
        · refine mreads_bind ?_ ?_
          · split
            · split
              · exact mreads_throw _
              · split
                · exact mreads_throw _
                · exact mreads_pure _
            · split
              · exact mreads_throw _
              · split
                · exact mreads_throw _
                · split
                  · exact mreads_throw _
                  · exact mreads_pure _
          · intro a
            refine mreads_bind (mreads_quorum_node_body_score lm qnb) ?_
            intro r
            cases r
            · exact mreads_throw _
            · exact mreads_pure _

theorem mreads_verify_well_formed_main_block_body (main : MainBlockBody) :
    MReads (verify_well_formed_main_block_body main) := by
  unfold verify_well_formed_main_block_body
  refine mreads_bind (mreads_lookupT _ _) ?_
  intro opts
  dsimp only
  split
  · exact mreads_throw _
  · split
    · split
      · exact mreads_throw _
      · exact mreads_pure _
    · refine mreads_bind (mreads_lookupT _ _) ?_
      intro prev
      dsimp only
      split
      · exact mreads_throw _
      · split
        · exact mreads_throw _
        · exact mreads_pure _


theorem rc_fold_ok (cs : List (HexPath × QuorumNode)) (b : QuorumNodeBody) (s : Store)
    (hmem : ∀ pc ∈ cs, encQuorumNode pc.2 ∈ s)
    (hpath : ∀ pc ∈ cs, pc.2.body.path = b.path ++ pc.1) :
    (cs.map (fun pc => (pc.1, encQuorumNode pc.2))).foldlM replace_children_step b s =
      (.ok { b with stats := cs.foldl (stats_plus_child b.last_main) b.stats }, s) := by
  induction cs generalizing b with
  | nil => rfl
  | cons pc rest ih =>
    have hm := hmem pc (List.mem_cons_self _ _)
    have hp := hpath pc (List.mem_cons_self _ _)
    simp only [List.map_cons, List.foldlM_cons, bind_apply, replace_children_step,
      lookupT_mem rdQuorumNode (encQuorumNode pc.2) s hm pc.2 (decOf_encQuorumNode pc.2)]
    rw [if_neg (by simp [hp])]
    simp only [pure_apply]
    have h2 := ih { b with stats := stats_plus_child b.last_main b.stats pc }
      (fun q hq => hmem q (List.mem_cons_of_mem _ hq))
      (fun q hq => hpath q (List.mem_cons_of_mem _ hq))
    simp only [List.foldl_cons]
    exact h2

theorem rc_fold_err (cs : List (HexPath × QuorumNode)) (b : QuorumNodeBody) (s : Store)
    (hmem : ∀ pc ∈ cs, encQuorumNode pc.2 ∈ s)
    (hbad : ∃ pc ∈ cs, pc.2.body.path ≠ b.path ++ pc.1) :
    ((cs.map (fun pc => (pc.1, encQuorumNode pc.2))).foldlM replace_children_step b s).1 =
      .error "quorum child node has wrong path" := by
  induction cs generalizing b with
  | nil =>
    obtain ⟨pc, hpc, _⟩ := hbad
    cases hpc
  | cons pc rest ih =>
    have hm := hmem pc (List.mem_cons_self _ _)
    simp only [List.map_cons, List.foldlM_cons, bind_apply, replace_children_step,
      lookupT_mem rdQuorumNode (encQuorumNode pc.2) s hm pc.2 (decOf_encQuorumNode pc.2)]
    by_cases hp : pc.2.body.path = b.path ++ pc.1
    · rw [if_neg (by simp [hp])]
      simp only [pure_apply]
      rcases hbad with ⟨q, hq, hqbad⟩
      rcases List.mem_cons.mp hq with rfl | hq2
      · exact absurd hp hqbad
      · exact ih { b with stats := stats_plus_child b.last_main b.stats pc }
          (fun r hr => hmem r (List.mem_cons_of_mem _ hr)) ⟨q, hq2, hqbad⟩
    · rw [if_pos (by simpa using hp)]
      rfl


@[simp] theorem decOf_wrBytes (bs : Bytes) : decOf rdBytes (wrBytes bs) = some bs :=
  decOf_enc rdBytes wrBytes (fun a rest => rdBytes_wrBytes a rest) bs

@[simp] theorem decOf_wrNat (n : Nat) : decOf rdNat (wrNat n) = some n := rfl

@[simp] theorem decOf_wrOpt_wrBytes (o : Option Bytes) :
    decOf (rdOpt rdBytes) (wrOpt wrBytes o) = some o :=
  decOf_enc (rdOpt rdBytes) (wrOpt wrBytes) (fun a rest => rdOpt_rdBytes_wr a rest) o

@[simp] theorem decOf_encSignature (sg : Signature) :
    decOf rdSignature (encSignature sg) = some sg :=
  decOf_enc rdSignature encSignature (fun a rest => rdSignature_enc a rest) sg

@[simp] theorem account_mkSig (k m : Bytes) : (mkSig k m).account = k := rfl

@[simp] theorem verify_sig_mkSig (k m : Bytes) : verify_sig m (mkSig k m) = true := by
  simp [verify_sig, mkSig]

@[simp] theorem except_bind_ok (x : α) (f : α → Except String β) :
    (Except.ok x >>= f) = f x := rfl

@[simp] theorem except_bind_err (e : String) (f : α → Except String β) :
    ((Except.error e : Except String α) >>= f) = Except.error e := rfl

@[simp] theorem mapGet_nil (k : HexPath) : mapGet [] k = none := rfl

@[simp] theorem mapGet_cons (k1 k : HexPath) (v1 : Bytes) (rest : List (HexPath × Bytes)) :
    mapGet ((k1, v1) :: rest) k = if k1 = k then some v1 else mapGet rest k := rfl

@[simp] theorem mapInsert_nil (k : HexPath) (v : Bytes) :
    mapInsert [] k v = [(k, v)] := rfl

theorem cpwf_go_mem {α : Type} (cs : List (HexPath × α)) (prev0 : Nat)
    (h : children_paths_well_formed.go prev0 cs = true) :
    ∀ pc ∈ cs, ∃ h0 t0, pc.1 = h0 :: t0 ∧ prev0 < h0 := by
  induction cs generalizing prev0 with
  | nil => intro pc hpc; cases hpc
  | cons x rest ih =>
    obtain ⟨p, a⟩ := x
    intro pc hpc
    simp only [children_paths_well_formed.go] at h
    cases p with
    | nil => cases h
    | cons p0 ptail =>
      simp only [Bool.and_eq_true, decide_eq_true_eq] at h
      rcases List.mem_cons.mp hpc with rfl | hm
      · exact ⟨p0, ptail, rfl, h.1⟩
      · obtain ⟨h0, t0, he, hlt⟩ := ih _ h.2 pc hm
        exact ⟨h0, t0, he, Nat.lt_trans h.1 hlt⟩

theorem cpwf_go_tail {α : Type} (cs : List (HexPath × α)) (prev0 : Nat)
    (h : children_paths_well_formed.go prev0 cs = true) :
    children_paths_well_formed cs = true := by
  cases cs with
  | nil => rfl
  | cons x rest =>
    obtain ⟨p, a⟩ := x
    simp only [children_paths_well_formed.go] at h
    cases p with
    | nil => cases h
    | cons p0 ptail =>
      simp only [Bool.and_eq_true, decide_eq_true_eq] at h
      simp only [children_paths_well_formed]
      exact h.2

theorem cpwf_mem {α : Type} (cs : List (HexPath × α))
    (h : children_paths_well_formed cs = true) :
    ∀ pc ∈ cs, pc.1 ≠ [] := by
  cases cs with
  | nil => intro pc hpc; cases hpc
  | cons x rest =>
    obtain ⟨p, a⟩ := x
    simp only [children_paths_well_formed] at h
    cases p with
    | nil => cases h
    | cons p0 ptail =>
      intro pc hpc
      rcases List.mem_cons.mp hpc with rfl | hm
      · simp
      · obtain ⟨h0, t0, he, _⟩ := cpwf_go_mem rest p0 h pc hm
        simp [he]

theorem cpwf_heads_uniq {α : Type} (cs : List (HexPath × α))
    (h : children_paths_well_formed cs = true) :
    ∀ pc ∈ cs, ∀ pc' ∈ cs, pc.1.head? = pc'.1.head? → pc = pc' := by
  induction cs with
  | nil => intro pc hpc; cases hpc
  | cons x rest ih =>
    obtain ⟨p, a⟩ := x
    intro pc hpc pc' hpc' hh
    simp only [children_paths_well_formed] at h
    cases p with
    | nil => cases h
    | cons p0 ptail =>
      have hrest := cpwf_go_tail rest p0 h
      rcases List.mem_cons.mp hpc with rfl | hm
      · rcases List.mem_cons.mp hpc' with rfl | hm'
        · rfl
        · obtain ⟨h0, t0, he, hlt⟩ := cpwf_go_mem rest p0 h pc' hm'
          rw [he] at hh
          simp at hh
          omega
      · rcases List.mem_cons.mp hpc' with rfl | hm'
        · obtain ⟨h0, t0, he, hlt⟩ := cpwf_go_mem rest p0 h pc hm
          rw [he] at hh
          simp at hh
          omega
        · exact ih hrest pc hm pc' hm' hh

theorem find?_eq_some_of_uniq {α : Type} (l : List α) (P : α → Bool) (x : α)
    (hx : x ∈ l) (hPx : P x = true)
    (huniq : ∀ y ∈ l, P y = true → y = x) :
    l.find? P = some x := by
  induction l with
  | nil => cases hx
  | cons z rest ih =>
    by_cases hz : P z = true
    · have : z = x := huniq z (List.mem_cons_self _ _) hz
      subst this
      simp [List.find?, hz]
    · simp only [List.find?]
      rw [Bool.not_eq_true] at hz
      rw [hz]
      rcases List.mem_cons.mp hx with rfl | hm
      · rw [hPx] at hz; cases hz
      · exact ih hm (fun y hy hPy => huniq y (List.mem_cons_of_mem _ hy) hPy)


theorem encTree_eq (t : DTree) : encTree t = encDataNode (dataNodeOf t) := by
  cases t
  rfl

theorem dataNodeOf_children (f : Option Bytes) (cs : List (HexPath × DTree)) :
    (dataNodeOf (.node f cs)).children = encChildren cs := rfl

theorem encChildren_find1 (cs : List (HexPath × DTree)) (q : HexPath) :
    (encChildren cs).find? (fun c => q == c.1) =
      ((cs.find? (fun pc => q == pc.1)).map (fun pc => (pc.1, encTree pc.2))) := by
  induction cs with
  | nil => rfl
  | cons x rest ih =>
    obtain ⟨p, t⟩ := x
    simp only [encChildren, List.find?]
    cases hP : q == p
    · simpa using ih
    · rfl

theorem encChildren_any1 (cs : List (HexPath × DTree)) (q : HexPath) :
    (encChildren cs).any (fun c => isPrefixL q c.1) =
      cs.any (fun pc => isPrefixL q pc.1) := by
  induction cs with
  | nil => rfl
  | cons x rest ih =>
    obtain ⟨p, t⟩ := x
    simp only [encChildren, List.any_cons, ih]

theorem encChildren_cpwf (cs : List (HexPath × DTree)) :
    children_paths_well_formed (encChildren cs) = children_paths_well_formed cs := by
  have hgo : ∀ (cs : List (HexPath × DTree)) (prev0 : Nat),
      children_paths_well_formed.go prev0 (encChildren cs) =
        children_paths_well_formed.go prev0 cs := by
    intro cs
    induction cs with
    | nil => intro prev0; rfl
    | cons x rest ih =>
      obtain ⟨p, t⟩ := x
      intro prev0
      cases p with
      | nil => rfl
      | cons p0 ptail =>
        simp only [encChildren, children_paths_well_formed.go, ih]
  cases cs with
  | nil => rfl
  | cons x rest =>
    obtain ⟨p, t⟩ := x
    cases p with
    | nil => rfl
    | cons p0 ptail =>
      simp only [encChildren, children_paths_well_formed, hgo]

theorem treeStored_mono {s s' : Store} (hss : ∀ b ∈ s, b ∈ s') {t : DTree}
    (h : TreeStored s t) : TreeStored s' t := by
  induction h with
  | mk f cs hm hcs ih => exact .mk f cs (hss _ hm) ih

theorem treeStored_lookup {s : Store} {t : DTree} (h : TreeStored s t) :
    lookupT rdDataNode (encTree t) s = (.ok (dataNodeOf t), s) := by
  cases h with
  | mk f cs hm hcs =>
    refine lookupT_mem _ _ _ hm _ ?_
    rw [encTree_eq]
    exact decOf_encDataNode _

theorem treeStored_children {s : Store} {t : DTree} (h : TreeStored s t) :
    ∀ pc ∈ t.children, TreeStored s pc.2 := by
  cases h with
  | mk f cs hm hcs => exact hcs

theorem sim_follow {s : Store} (q : HexPath) :
    ∀ (t : DTree) (pref : HexPath), TreeStored s t →
    rh_follow_path rdDataNode (fun dn => dn.children) (dataNodeOf t) pref q s =
      ((followP t pref q).elim (.error "RH node not found")
        (fun r => .ok (dataNodeOf r.1, r.2)), s) := by
  induction q with
  | nil =>
    intro t pref hts
    rfl
  | cons d rest ih =>
    intro t pref hts
    obtain ⟨f, cs⟩ := t
    rw [rh_follow_path]
    simp only [dataNodeOf_children, followP, DTree.children,
      encChildren_find1 cs (pref ++ [d]), encChildren_any1 cs (pref ++ [d])]
    cases hf : cs.find? (fun pc => pref ++ [d] == pc.1) with
    | none =>
      simp only [Option.map_none']
      by_cases ha : (cs.any fun pc => isPrefixL (pref ++ [d]) pc.1) = true
      · rw [if_pos ha, if_pos ha]
        exact ih ⟨f, cs⟩ (pref ++ [d]) hts
      · rw [if_neg ha, if_neg ha]
        rfl
    | some pc =>
      simp only [Option.map_some', bind_apply]
      have hmem := List.mem_of_find?_eq_some hf
      have hst : TreeStored s pc.2 := treeStored_children hts pc hmem
      rw [treeStored_lookup hst]
      exact ih pc.2 [] hst


theorem hdc_mem_head {α : Type} {d : Nat} {cs : List (HexPath × α)}
    {pc : HexPath × α} (h : hdc d cs = some pc) :
    pc ∈ cs ∧ pc.1.head? = some d := by
  refine ⟨List.mem_of_find?_eq_some h, ?_⟩
  have := List.find?_some h
  simpa using this

theorem find_head_det {α : Type} (cs : List (HexPath × α)) (d : Nat)
    (P : HexPath × α → Bool)
    (hP : ∀ pc ∈ cs, P pc = true → pc.1.head? = some d)
    (huniq : ∀ pc ∈ cs, ∀ pc' ∈ cs, pc.1.head? = pc'.1.head? → pc = pc') :
    cs.find? P = match hdc d cs with
      | some pc => if P pc then some pc else none
      | none => none := by
  cases hf : cs.find? P with
  | some pc =>
    have hmem := List.mem_of_find?_eq_some hf
    have hPpc := List.find?_some hf
    have hhd := hP pc hmem hPpc
    have hh : hdc d cs = some pc := by
      apply find?_eq_some_of_uniq _ _ _ hmem
      · simp [hhd]
      · intro y hy hPy
        apply huniq y hy pc hmem
        rw [hhd]
        simpa using hPy
    rw [hh]
    simp [hPpc]
  | none =>
    have hnone := List.find?_eq_none.mp hf
    cases hh : hdc d cs with
    | none => rfl
    | some pc =>
      have hmem := (hdc_mem_head hh).1
      have := hnone pc hmem
      simp only [Bool.not_eq_true] at this
      simp [this]

theorem any_head_det {α : Type} (cs : List (HexPath × α)) (d : Nat)
    (P : HexPath × α → Bool)
    (hP : ∀ pc ∈ cs, P pc = true → pc.1.head? = some d)
    (huniq : ∀ pc ∈ cs, ∀ pc' ∈ cs, pc.1.head? = pc'.1.head? → pc = pc') :
    cs.any P = match hdc d cs with
      | some pc => P pc
      | none => false := by
  cases hh : hdc d cs with
  | none =>
    have hnone := List.find?_eq_none.mp hh
    rw [← Bool.not_eq_true, List.any_eq_true]
    rintro ⟨x, hx, hPx⟩
    have := hnone x hx
    exact this (by simp [hP x hx hPx])
  | some pc =>
    obtain ⟨hmem, hhd⟩ := hdc_mem_head hh
    show cs.any P = P pc
    cases hp : P pc with
    | true => exact List.any_eq_true.mpr ⟨pc, hmem, hp⟩
    | false =>
      rw [← Bool.not_eq_true, List.any_eq_true]
      rintro ⟨x, hx, hPx⟩
      have hx_eq : x = pc := huniq x hx pc hmem (by rw [hP x hx hPx, hhd])
      rw [hx_eq, hp] at hPx
      exact Bool.false_ne_true hPx

theorem findP_hd (cs : List (HexPath × DTree)) (p0 : Nat)
    (h : children_paths_well_formed cs = true) :
    findP p0 cs = match hdc p0 cs with
      | some pc => some (p0, pc.1.tail, pc.2)
      | none => none := by
  induction cs with
  | nil => rfl
  | cons x rest ih =>
    obtain ⟨p, a⟩ := x
    cases p with
    | nil => simp [children_paths_well_formed] at h
    | cons q0 qtail =>
      have hrest : children_paths_well_formed rest = true := by
        simp only [children_paths_well_formed] at h
        exact cpwf_go_tail rest q0 h
      by_cases he : q0 = p0
      · subst he
        simp [findP, hdc, List.find?]
      · have hb : (q0 == p0) = false := by simpa using he
        rw [show findP p0 ((q0 :: qtail, a) :: rest) = findP p0 rest by
            simp [findP, he]]
        rw [ih hrest]
        have : hdc p0 ((q0 :: qtail, a) :: rest) = hdc p0 rest := by
          simp [hdc, List.find?, hb]
        rw [this]

theorem fch_hd (cs : List (HexPath × Bytes)) (p0 : Nat)
    (h : children_paths_well_formed cs = true) :
    find_child_by_head p0 cs = .ok (match hdc p0 cs with
      | some pc => some (p0, pc.1.tail, pc.2)
      | none => none) := by
  induction cs with
  | nil => rfl
  | cons x rest ih =>
    obtain ⟨p, a⟩ := x
    cases p with
    | nil => simp [children_paths_well_formed] at h
    | cons q0 qtail =>
      have hrest : children_paths_well_formed rest = true := by
        simp only [children_paths_well_formed] at h
        exact cpwf_go_tail rest q0 h
      by_cases he : q0 = p0
      · subst he
        simp [find_child_by_head, hdc, List.find?]
      · have hb : (q0 == p0) = false := by simpa using he
        rw [show find_child_by_head p0 ((q0 :: qtail, a) :: rest) =
            find_child_by_head p0 rest by simp [find_child_by_head, he]]
        rw [ih hrest]
        have : hdc p0 ((q0 :: qtail, a) :: rest) = hdc p0 rest := by
          simp [hdc, List.find?, hb]
        rw [this]

theorem encChildren_hdc (cs : List (HexPath × DTree)) (d : Nat) :
    hdc d (encChildren cs) = (hdc d cs).map (fun pc => (pc.1, encTree pc.2)) := by
  induction cs with
  | nil => rfl
  | cons x rest ih =>
    obtain ⟨p, t⟩ := x
    simp only [encChildren, hdc, List.find?] at *
    cases hP : (p.head? == some d)
    · simpa using ih
    · rfl

theorem isPrefixL_cons (a b : Nat) (l m : List Nat) :
    isPrefixL (a :: l) (b :: m) = ((a == b) && isPrefixL l m) := by
  simp only [isPrefixL, List.zip_cons_cons, List.all_cons, List.length_cons,
    Nat.add_le_add_iff_right]
  cases a == b <;> cases decide (l.length ≤ m.length) <;> simp_all

theorem isPrefixL_refl (l : List Nat) : isPrefixL l l = true :=
  (isPrefixL_iff l l).mpr (List.prefix_refl l)

theorem isPrefixL_nil_right (l : List Nat) : isPrefixL l [] = l.isEmpty := by
  cases l <;> simp [isPrefixL]

theorem isPrefixL_append_same (T a b : List Nat) :
    isPrefixL (T ++ a) (T ++ b) = isPrefixL a b := by
  induction T with
  | nil => rfl
  | cons x xs ih => simp [isPrefixL_cons, ih]

theorem isPrefixL_drop_eq {a b : List Nat} (h : isPrefixL a b = true) :
    b = a ++ b.drop a.length := by
  obtain ⟨ex, hex⟩ := (isPrefixL_iff a b).mp h
  subst hex
  rw [List.drop_left]

theorem lpl_le_left : ∀ a b : List Nat, longest_prefix_length a b ≤ a.length := by
  intro a
  induction a with
  | nil => intro b; cases b <;> simp [longest_prefix_length]
  | cons x xs ih =>
    intro b
    cases b with
    | nil => simp [longest_prefix_length]
    | cons y ys =>
      simp only [longest_prefix_length, List.length_cons]
      by_cases h : x = y
      · rw [if_pos h]
        exact Nat.add_le_add_right (ih ys) 1
      · rw [if_neg h]
        exact Nat.zero_le _

theorem lpl_le_right : ∀ a b : List Nat, longest_prefix_length a b ≤ b.length := by
  intro a
  induction a with
  | nil => intro b; cases b <;> simp [longest_prefix_length]
  | cons x xs ih =>
    intro b
    cases b with
    | nil => simp [longest_prefix_length]
    | cons y ys =>
      simp only [longest_prefix_length, List.length_cons]
      by_cases h : x = y
      · rw [if_pos h]
        exact Nat.add_le_add_right (ih ys) 1
      · rw [if_neg h]
        exact Nat.zero_le _

theorem lpl_take : ∀ a b : List Nat,
    a.take (longest_prefix_length a b) = b.take (longest_prefix_length a b) := by
  intro a
  induction a with
  | nil => intro b; cases b <;> simp [longest_prefix_length]
  | cons x xs ih =>
    intro b
    cases b with
    | nil => simp [longest_prefix_length]
    | cons y ys =>
      simp only [longest_prefix_length]
      by_cases h : x = y
      · rw [if_pos h]
        simp [List.take_succ_cons, h, ih ys]
      · rw [if_neg h]
        simp

theorem lpl_lt_of_not_prefix {a b : List Nat} (h : isPrefixL b a = false) :
    longest_prefix_length a b < b.length := by
  rcases Nat.lt_or_ge (longest_prefix_length a b) b.length with hlt | hge
  · exact hlt
  · exfalso
    have hk : longest_prefix_length a b = b.length :=
      Nat.le_antisymm (lpl_le_right a b) hge
    have htake := lpl_take a b
    rw [hk, List.take_length] at htake
    have : isPrefixL b a = true := by
      rw [isPrefixL_iff]
      rw [← htake]
      exact List.take_prefix _ _
    simp [this] at h


theorem hdc_cons {α : Type} (p0 : Nat) (ptail : HexPath) (a : α) (d : Nat)
    (cs : List (HexPath × α)) :
    hdc d ((p0 :: ptail, a) :: cs) =
      if p0 = d then some (p0 :: ptail, a) else hdc d cs := by
  simp only [hdc, List.find?]
  by_cases h : p0 = d
  · subst h
    simp
  · have hb : (p0 == d) = false := by simpa using h
    simp [hb, h]

theorem ic_go_spec {α : Type} (c0 : Nat) (ctail : HexPath) (cv : α) :
    ∀ (cs : List (HexPath × α)) (prev0 : Nat),
      children_paths_well_formed.go prev0 cs = true → prev0 < c0 →
      ∃ r, insert_child.go (c0 :: ctail, cv) c0 cs = some r ∧
        children_paths_well_formed.go prev0 r = true ∧
        (∀ d, hdc d r = if d = c0 then some (c0 :: ctail, cv) else hdc d cs) ∧
        (∀ pc ∈ r, pc = (c0 :: ctail, cv) ∨ pc ∈ cs) := by
  intro cs
  induction cs with
  | nil =>
    intro prev0 hgo hlt
    refine ⟨[(c0 :: ctail, cv)], rfl, ?_, ?_, ?_⟩
    · simp [children_paths_well_formed.go, hlt]
    · intro d
      rw [hdc_cons]
      by_cases hd : d = c0
      · subst hd
        simp
      · simp [hd, Ne.symm hd]
    · intro pc hpc
      left
      simpa using hpc
  | cons x rest ih =>
    intro prev0 hgo hlt
    obtain ⟨p, a⟩ := x
    cases p with
    | nil => simp [children_paths_well_formed.go] at hgo
    | cons p0 ptail =>
      simp only [children_paths_well_formed.go, Bool.and_eq_true,
        decide_eq_true_eq] at hgo
      obtain ⟨hp0, hrest⟩ := hgo
      by_cases hle : c0 ≤ p0
      · by_cases heq : p0 = c0
        · subst heq
          refine ⟨(p0 :: ctail, cv) :: rest, ?_, ?_, ?_, ?_⟩
          · simp [insert_child.go, hle]
          · simp [children_paths_well_formed.go, hlt, hrest]
          · intro d
            rw [hdc_cons, hdc_cons]
            by_cases hd : d = p0
            · subst hd
              simp
            · simp [hd, Ne.symm hd]
          · intro pc hpc
            rcases List.mem_cons.mp hpc with rfl | hm
            · left; rfl
            · right; exact List.mem_cons_of_mem _ hm
        · have hlt2 : c0 < p0 := Nat.lt_of_le_of_ne hle (fun h => heq h.symm)
          refine ⟨(c0 :: ctail, cv) :: (p0 :: ptail, a) :: rest, ?_, ?_, ?_, ?_⟩
          · simp [insert_child.go, hle, heq]
          · simp [children_paths_well_formed.go, hlt, hlt2, hp0, hrest]
          · intro d
            rw [hdc_cons, hdc_cons]
            by_cases hd : d = c0
            · subst hd
              simp [Nat.ne_of_gt hlt2]
            · simp [hd, Ne.symm hd]
          · intro pc hpc
            rcases List.mem_cons.mp hpc with rfl | hm
            · left; rfl
            · right; exact hm
      · have hlt2 : p0 < c0 := Nat.lt_of_not_le hle
        obtain ⟨r', hr', hgo', hhd', hmem'⟩ := ih p0 hrest hlt2
        refine ⟨(p0 :: ptail, a) :: r', ?_, ?_, ?_, ?_⟩
        · simp [insert_child.go, hle, hr']
        · simp [children_paths_well_formed.go, hp0, hgo']
        · intro d
          rw [hdc_cons, hdc_cons, hhd' d]
          by_cases hd : d = c0
          · subst hd
            simp [Nat.ne_of_lt hlt2]
          · simp [hd]
        · intro pc hpc
          rcases List.mem_cons.mp hpc with rfl | hm
          · right; exact List.mem_cons_self _ _
          · rcases hmem' pc hm with rfl | hm2
            · left; rfl
            · right; exact List.mem_cons_of_mem _ hm2

theorem ic_spec {α : Type} (c0 : Nat) (ctail : HexPath) (cv : α)
    (cs : List (HexPath × α))
    (h : children_paths_well_formed cs = true) :
    ∃ r, insert_child (c0 :: ctail, cv) cs = some r ∧
      children_paths_well_formed r = true ∧
      (∀ d, hdc d r = if d = c0 then some (c0 :: ctail, cv) else hdc d cs) ∧
      (∀ pc ∈ r, pc = (c0 :: ctail, cv) ∨ pc ∈ cs) := by
  cases cs with
  | nil =>
    refine ⟨[(c0 :: ctail, cv)], rfl, rfl, ?_, ?_⟩
    · intro d
      rw [hdc_cons]
      by_cases hd : d = c0
      · subst hd
        simp
      · simp [hd, Ne.symm hd]
    · intro pc hpc
      left
      simpa using hpc
  | cons x rest =>
    obtain ⟨p, a⟩ := x
    cases p with
    | nil => simp [children_paths_well_formed] at h
    | cons p0 ptail =>
      have hgo : children_paths_well_formed.go p0 rest = true := by
        simpa [children_paths_well_formed] using h
      by_cases hle : c0 ≤ p0
      · by_cases heq : p0 = c0
        · subst heq
          refine ⟨(p0 :: ctail, cv) :: rest, ?_, ?_, ?_, ?_⟩
          · simp [insert_child, insert_child.go, hle]
          · simpa [children_paths_well_formed] using hgo
          · intro d
            rw [hdc_cons, hdc_cons]
            by_cases hd : d = p0
            · subst hd
              simp
            · simp [hd, Ne.symm hd]
          · intro pc hpc
            rcases List.mem_cons.mp hpc with rfl | hm
            · left; rfl
            · right; exact List.mem_cons_of_mem _ hm
        · have hlt2 : c0 < p0 := Nat.lt_of_le_of_ne hle (fun h => heq h.symm)
          refine ⟨(c0 :: ctail, cv) :: (p0 :: ptail, a) :: rest, ?_, ?_, ?_, ?_⟩
          · simp [insert_child, insert_child.go, hle, heq]
          · simp [children_paths_well_formed, children_paths_well_formed.go,
              hlt2, hgo]
          · intro d
            rw [hdc_cons, hdc_cons]
            by_cases hd : d = c0
            · subst hd
              simp [Nat.ne_of_gt hlt2]
            · simp [hd, Ne.symm hd]
          · intro pc hpc
            rcases List.mem_cons.mp hpc with rfl | hm
            · left; rfl
            · right; exact hm
      · have hlt2 : p0 < c0 := Nat.lt_of_not_le hle
        obtain ⟨r', hr', hgo', hhd', hmem'⟩ := ic_go_spec c0 ctail cv rest p0 hgo hlt2
        refine ⟨(p0 :: ptail, a) :: r', ?_, ?_, ?_, ?_⟩
        · simp [insert_child, insert_child.go, hle, hr']
        · simpa [children_paths_well_formed] using hgo'
        · intro d
          rw [hdc_cons, hdc_cons, hhd' d]
          by_cases hd : d = c0
          · subst hd
            simp [Nat.ne_of_lt hlt2]
          · simp [hd]
        · intro pc hpc
          rcases List.mem_cons.mp hpc with rfl | hm
          · right; exact List.mem_cons_self _ _
          · rcases hmem' pc hm with rfl | hm2
            · left; rfl
            · right; exact List.mem_cons_of_mem _ hm2

theorem ic_go_enc (q : HexPath) (u : DTree) (c0 : Nat) :
    ∀ cs : List (HexPath × DTree),
      insert_child.go (q, encTree u) c0 (encChildren cs) =
        (insert_child.go (q, u) c0 cs).map encChildren := by
  intro cs
  induction cs with
  | nil => rfl
  | cons x rest ih =>
    obtain ⟨p, t⟩ := x
    cases p with
    | nil => rfl
    | cons p0 ptail =>
      simp only [encChildren, insert_child.go]
      by_cases hle : c0 ≤ p0
      · by_cases heq : p0 = c0
        · simp [hle, heq, encChildren]
        · simp [hle, heq, encChildren]
      · simp only [if_neg hle, ih]
        cases insert_child.go (q, u) c0 rest <;> simp [encChildren]

theorem ic_enc (q : HexPath) (u : DTree) (cs : List (HexPath × DTree)) :
    insert_child (q, encTree u) (encChildren cs) =
      (insert_child (q, u) cs).map encChildren := by
  cases q with
  | nil => rfl
  | cons q0 qt =>
    simp only [insert_child]
    exact ic_go_enc (q0 :: qt) u q0 cs


theorem getSpec_nil (t : DTree) : getSpec t [] = t.fieldv := by
  rw [getSpec]

theorem getSpec_node (f : Option Bytes) (cs : List (HexPath × DTree))
    (d : Nat) (rest : HexPath) :
    getSpec (.node f cs) (d :: rest) =
      match cs.find? (fun pc => isPrefixL pc.1 (d :: rest)) with
      | some pc =>
        match pc.1 with
        | [] => none
        | _ :: qrest => getSpec pc.2 (rest.drop qrest.length)
      | none => none := by
  rw [getSpec]
  rfl

theorem getSpec_hdc (f : Option Bytes) (cs : List (HexPath × DTree))
    (h : children_paths_well_formed cs = true) (d : Nat) (rest : HexPath) :
    getSpec (.node f cs) (d :: rest) =
      match hdc d cs with
      | some pc =>
        if isPrefixL pc.1 (d :: rest) then getSpec pc.2 (rest.drop pc.1.tail.length)
        else none
      | none => none := by
  rw [getSpec_node]
  rw [find_head_det cs d (fun pc => isPrefixL pc.1 (d :: rest))]
  · cases hh : hdc d cs with
    | none => rfl
    | some pc =>
      obtain ⟨hmem, hhd⟩ := hdc_mem_head hh
      cases hp : isPrefixL pc.1 (d :: rest) with
      | false => simp [hp]
      | true =>
        simp only [hp, if_true]
        cases hp1 : pc.1 with
        | nil => rw [hp1] at hhd; cases hhd
        | cons e et => simp
  · intro pc hpc hP
    have hne := cpwf_mem cs h pc hpc
    cases hp1 : pc.1 with
    | nil => exact absurd hp1 hne
    | cons e et =>
      rw [hp1] at hP
      rw [isPrefixL_cons, Bool.and_eq_true, beq_iff_eq] at hP
      rw [hP.1]
      rfl
  · exact cpwf_heads_uniq cs h

theorem getSpec_leaf (v : Bytes) (q : HexPath) :
    getSpec (.node (some v) []) q = if q = [] then some v else none := by
  cases q with
  | nil => rw [getSpec_nil]; rfl
  | cons d rest =>
    rw [getSpec_node]
    simp

theorem getSpec_single (e : Nat) (et : HexPath) (c : DTree) (q : HexPath) :
    getSpec (.node none [(e :: et, c)]) q =
      if isPrefixL (e :: et) q then getSpec c (q.drop (et.length + 1))
      else none := by
  cases q with
  | nil =>
    rw [getSpec_nil]
    have : isPrefixL (e :: et) [] = false := by
      rw [isPrefixL_nil_right]
      rfl
    rw [this, if_neg (by simp)]
    rfl
  | cons a r =>
    rw [getSpec_node]
    simp only [List.find?]
    cases hp : isPrefixL (e :: et) (a :: r) with
    | true =>
      simp only [hp]
      rfl
    | false =>
      simp only [hp]
      rfl

theorem tgetP_eq_getFol (t : DTree) (q : HexPath) : tgetP t q = getFol t [] q := rfl


theorem isPrefixL_nil_left (l : List Nat) : isPrefixL [] l = true := by
  simp [isPrefixL]

theorem followP_cons (t : DTree) (pref : HexPath) (d : Nat) (rest : HexPath) :
    followP t pref (d :: rest) =
      match t.children.find? (fun pc => (pref ++ [d]) == pc.1) with
      | some pc => followP pc.2 [] rest
      | none =>
        if t.children.any (fun pc => isPrefixL (pref ++ [d]) pc.1) then
          followP t (pref ++ [d]) rest
        else none := by
  rw [followP]

theorem getFol_cons_find_some {f : Option Bytes} {cs : List (HexPath × DTree)}
    {pref : HexPath} {d : Nat} {rest : HexPath} {pc : HexPath × DTree}
    (h : cs.find? (fun pc => (pref ++ [d]) == pc.1) = some pc) :
    getFol (.node f cs) pref (d :: rest) = getFol pc.2 [] rest := by
  simp only [getFol, followP_cons, DTree.children, h]

theorem getFol_cons_skip {f : Option Bytes} {cs : List (HexPath × DTree)}
    {pref : HexPath} {d : Nat} {rest : HexPath}
    (h : cs.find? (fun pc => (pref ++ [d]) == pc.1) = none)
    (ha : cs.any (fun pc => isPrefixL (pref ++ [d]) pc.1) = true) :
    getFol (.node f cs) pref (d :: rest) = getFol (.node f cs) (pref ++ [d]) rest := by
  simp only [getFol, followP_cons, DTree.children, h, ha, if_true]

theorem getFol_cons_none {f : Option Bytes} {cs : List (HexPath × DTree)}
    {pref : HexPath} {d : Nat} {rest : HexPath}
    (h : cs.find? (fun pc => (pref ++ [d]) == pc.1) = none)
    (ha : cs.any (fun pc => isPrefixL (pref ++ [d]) pc.1) = false) :
    getFol (.node f cs) pref (d :: rest) = none := by
  simp only [getFol, followP_cons, DTree.children, h, ha]
  rfl

theorem getFol_mid :
    ∀ (q : HexPath) (f : Option Bytes) (cs : List (HexPath × DTree))
      (d : Nat) (pt : HexPath) (pc : HexPath × DTree),
      children_paths_well_formed cs = true →
      hdc d cs = some pc →
      isPrefixL (d :: pt) pc.1 = true → d :: pt ≠ pc.1 →
      getFol (.node f cs) (d :: pt) q =
        (if isPrefixL (pc.1.drop (pt.length + 1)) q = true
         then getFol pc.2 [] (q.drop (pc.1.length - (pt.length + 1)))
         else none) := by
  intro q
  induction q with
  | nil =>
    intro f cs d pt pc hcpwf hh hpre hne
    have hlen : pt.length + 1 < pc.1.length := by
      have hp := (isPrefixL_iff _ _).mp hpre
      have hle := hp.length_le
      simp only [List.length_cons] at hle
      rcases Nat.lt_or_ge (pt.length + 1) pc.1.length with h | hge
      · exact h
      · exact absurd (hp.eq_of_length (by simp; omega)) hne
    have hld := List.length_drop (pt.length + 1) pc.1
    cases hdrop : pc.1.drop (pt.length + 1) with
    | nil =>
      exfalso
      rw [hdrop] at hld
      simp at hld
      omega
    | cons e et =>
      rw [isPrefixL_nil_right]
      simp only [List.isEmpty_cons, Bool.false_eq_true, if_false]
      rfl
  | cons d' rest' ih =>
    intro f cs d pt pc hcpwf hh hpre hne
    obtain ⟨hmem, hhd⟩ := hdc_mem_head hh
    have huniq := cpwf_heads_uniq cs hcpwf
    have hfind : cs.find? (fun c => ((d :: pt) ++ [d']) == c.1) =
        (if (((d :: pt) ++ [d']) == pc.1) then some pc else none) := by
      rw [find_head_det cs d (fun c => ((d :: pt) ++ [d']) == c.1) ?_ huniq, hh]
      intro pc' hpc' hP'
      rw [beq_iff_eq] at hP'
      rw [← hP']
      rfl
    by_cases heq : (d :: pt) ++ [d'] = pc.1
    · have hfs : cs.find? (fun c => ((d :: pt) ++ [d']) == c.1) = some pc := by
        rw [hfind, if_pos (by simpa using heq)]
      rw [getFol_cons_find_some hfs]
      have hdlen : (d :: pt).length = pt.length + 1 := rfl
      have hdrop : pc.1.drop (pt.length + 1) = [d'] := by
        rw [← heq, ← hdlen, List.drop_left]
      have hlen : pc.1.length = pt.length + 2 := by
        rw [← heq]
        simp
      rw [hdrop, hlen, isPrefixL_cons]
      simp only [beq_self_eq_true, Bool.true_and, isPrefixL_nil_left, if_true]
      have h1 : pt.length + 2 - (pt.length + 1) = 1 := by omega
      rw [h1]
      rfl
    · have hfn : cs.find? (fun c => ((d :: pt) ++ [d']) == c.1) = none := by
        rw [hfind, if_neg (by simpa using heq)]
      have hany : cs.any (fun c => isPrefixL ((d :: pt) ++ [d']) c.1) =
          isPrefixL ((d :: pt) ++ [d']) pc.1 := by
        rw [any_head_det cs d (fun c => isPrefixL ((d :: pt) ++ [d']) c.1) ?_ huniq, hh]
        intro pc' hpc' hP'
        obtain ⟨ex, hex⟩ := (isPrefixL_iff _ _).mp hP'
        rw [← hex]
        rfl
      by_cases hpre2 : isPrefixL ((d :: pt) ++ [d']) pc.1 = true
      · rw [getFol_cons_skip hfn (by
          show (cs.any fun c => isPrefixL ((d :: pt) ++ [d']) c.1) = true
          rw [hany]; exact hpre2)]
        have hres := ih f cs d (pt ++ [d']) pc hcpwf hh hpre2 heq
        rw [List.cons_append d pt [d'], hres]
        obtain ⟨ex, hex⟩ := (isPrefixL_iff _ _).mp hpre2
        have hex' : pc.1 = (d :: pt) ++ (d' :: ex) := by
          rw [← hex]
          simp
        have h1 : pc.1.drop (pt.length + 1) = d' :: ex := by
          have hdlen : (d :: pt).length = pt.length + 1 := rfl
          rw [hex', ← hdlen, List.drop_left]
        have h2 : pc.1.drop ((pt ++ [d']).length + 1) = ex := by
          have hdlen : ((d :: pt) ++ [d']).length = (pt ++ [d']).length + 1 := by
            simp
          rw [← hex, ← hdlen, List.drop_left]
        have h3 : pc.1.length = pt.length + 2 + ex.length := by
          rw [hex']
          simp only [List.length_append, List.length_cons]
          omega
        rw [h1, h2, h3, isPrefixL_cons]
        simp only [beq_self_eq_true, Bool.true_and]
        have h4 : pt.length + 2 + ex.length - ((pt ++ [d']).length + 1) = ex.length := by
          simp only [List.length_append, List.length_cons, List.length_nil]
          omega
        have h5 : pt.length + 2 + ex.length - (pt.length + 1) = ex.length + 1 := by
          omega
        rw [h4, h5]
        rfl
      · have hanyf : cs.any (fun c => isPrefixL ((d :: pt) ++ [d']) c.1) = false := by
          rw [hany]
          cases hb2 : isPrefixL ((d :: pt) ++ [d']) pc.1 with
          | false => rfl
          | true => exact absurd hb2 hpre2
        rw [getFol_cons_none hfn hanyf]
        obtain ⟨rem, hrem⟩ := (isPrefixL_iff _ _).mp hpre
        have hdropr : pc.1.drop (pt.length + 1) = rem := by
          have hdlen : (d :: pt).length = pt.length + 1 := rfl
          rw [← hrem, ← hdlen, List.drop_left]
        cases rem with
        | nil =>
          exfalso
          apply hne
          rw [← hrem, List.append_nil]
        | cons r0 rt =>
          rw [hdropr]
          cases hb : isPrefixL (r0 :: rt) (d' :: rest') with
          | false => simp [hb]
          | true =>
            exfalso
            rw [isPrefixL_cons, Bool.and_eq_true, beq_iff_eq] at hb
            apply hpre2
            apply (isPrefixL_iff _ _).mpr
            exact ⟨rt, by rw [← hrem, hb.1]; simp⟩


theorem wft_cpwf {f : Option Bytes} {cs : List (HexPath × DTree)}
    (h : WFT (.node f cs)) : children_paths_well_formed cs = true := by
  cases h with
  | mk f cs hc hch => exact hc

theorem wft_children {f : Option Bytes} {cs : List (HexPath × DTree)}
    (h : WFT (.node f cs)) : ∀ pc ∈ cs, WFT pc.2 := by
  cases h with
  | mk f cs hc hch => exact hch

theorem getFol_eq_getSpec :
    ∀ (n : Nat) (q : HexPath) (t : DTree), q.length ≤ n → WFT t →
      getFol t [] q = getSpec t q := by
  intro n
  induction n with
  | zero =>
    intro q t hlen hwf
    cases q with
    | nil => rw [getSpec_nil]; rfl
    | cons d rest => simp at hlen
  | succ n ih =>
    intro q t hlen hwf
    cases q with
    | nil => rw [getSpec_nil]; rfl
    | cons d rest =>
      obtain ⟨f, cs⟩ := t
      have hcpwf := wft_cpwf hwf
      have hch := wft_children hwf
      have huniq := cpwf_heads_uniq cs hcpwf
      have hrlen : rest.length ≤ n := by
        simp only [List.length_cons] at hlen
        omega
      rw [getSpec_hdc f cs hcpwf]
      have hfind := find_head_det cs d (fun c => (([d] : HexPath) == c.1))
        (fun pc' hpc' hP' => by
          rw [beq_iff_eq] at hP'
          rw [← hP']
          rfl)
        huniq
      have hany0 := any_head_det cs d (fun c => isPrefixL [d] c.1)
        (fun pc' hpc' hP' => by
          obtain ⟨ex, hex⟩ := (isPrefixL_iff _ _).mp hP'
          rw [← hex]
          rfl)
        huniq
      cases hh : hdc d cs with
      | none =>
        rw [hh] at hfind hany0
        rw [getFol_cons_none hfind hany0]
      | some pc =>
        rw [hh] at hfind hany0
        dsimp only at hfind hany0 ⊢
        obtain ⟨hmem, hhd⟩ := hdc_mem_head hh
        have hwfc : WFT pc.2 := hch pc hmem
        cases hp0 : pc.1 with
        | nil => rw [hp0] at hhd; cases hhd
        | cons e et =>
          have hed : e = d := by
            rw [hp0] at hhd
            simpa using hhd
          rw [hed] at hp0 ⊢
          rw [hp0] at hfind hany0
          cases et with
          | nil =>
            rw [if_pos (by simp)] at hfind
            rw [getFol_cons_find_some hfind]
            have hpre : isPrefixL [d] (d :: rest) = true := by
              rw [isPrefixL_cons]
              simp [isPrefixL_nil_left]
            rw [if_pos hpre]
            simp only [List.tail_cons, List.length_nil, List.drop_zero]
            exact ih rest pc.2 hrlen hwfc
          | cons e1 et1 =>
            have hne2 : ¬ (([d] : HexPath) == d :: e1 :: et1) = true := by
              simp
            rw [if_neg hne2] at hfind
            have hpre : isPrefixL ([d] : HexPath) (d :: e1 :: et1) = true := by
              rw [isPrefixL_cons]
              simp [isPrefixL_nil_left]
            rw [hpre] at hany0
            rw [getFol_cons_skip hfind hany0]
            have hmid := getFol_mid rest f cs d [] pc hcpwf hh
              (by rw [hp0]; exact hpre)
              (by rw [hp0]; simp)
            rw [hp0] at hmid
            rw [show (([] : HexPath) ++ [d]) = [d] from rfl]
            rw [hmid]
            have h2 : (d :: e1 :: et1).length - (List.length ([] : HexPath) + 1) =
                (e1 :: et1).length := by simp
            have h3 : (d :: e1 :: et1).drop (List.length ([] : HexPath) + 1) =
                e1 :: et1 := by simp
            rw [h2, h3]
            have hpq : isPrefixL (d :: e1 :: et1) (d :: rest) =
                isPrefixL (e1 :: et1) rest := by
              rw [isPrefixL_cons]
              simp
            rw [hpq]
            simp only [List.tail_cons]
            cases hb : isPrefixL (e1 :: et1) rest with
            | false => simp [hb]
            | true =>
              rw [if_pos rfl, if_pos rfl]
              have hdlen : (rest.drop (e1 :: et1).length).length ≤ n := by
                have := List.length_drop (e1 :: et1).length rest
                omega
              exact ih _ pc.2 hdlen hwfc


theorem tgetP_eq_getSpec (t : DTree) (q : HexPath) (h : WFT t) :
    tgetP t q = getSpec t q := by
  rw [tgetP_eq_getFol]
  exact getFol_eq_getSpec q.length q t le_rfl h

theorem data_tree_get_eq (s : Store) (t : DTree) (q : HexPath)
    (hst : TreeStored s t) :
    data_tree_get s (encTree t) q = tgetP t q := by
  rw [data_tree_get]
  rw [show (do
      let top ← lookupT rdDataNode (encTree t)
      data_node_follow_path top q : M (DataNode × HexPath)) =
    (lookupT rdDataNode (encTree t) >>= fun top =>
      data_node_follow_path top q) from rfl]
  rw [bind_apply, treeStored_lookup hst]
  dsimp only
  rw [show data_node_follow_path (dataNodeOf t) q =
    rh_follow_path rdDataNode (fun dn => dn.children) (dataNodeOf t) [] q from rfl]
  rw [sim_follow q t [] hst]
  rw [tgetP]
  cases hfp : followP t [] q with
  | none => rfl
  | some r =>
    obtain ⟨t', pref'⟩ := r
    cases pref' with
    | nil => rfl
    | cons a pt => rfl

theorem drop_len_append {α : Type} (l1 l2 : List α) (n : Nat)
    (h : l1.length = n) : (l1 ++ l2).drop n = l2 := by
  subst h
  exact List.drop_left l1 l2

theorem insertT_nil_eq (v : Bytes) (f : Option Bytes)
    (cs : List (HexPath × DTree)) :
    insertT [] v (.node f cs) = some (.node (some v) cs) := by
  rw [insertT]

theorem insertT_cons_eq (p0 : Nat) (prest : HexPath) (v : Bytes)
    (f : Option Bytes) (cs : List (HexPath × DTree)) :
    insertT (p0 :: prest) v (.node f cs) =
      match findP p0 cs with
      | some (q0, qrest, child) =>
        if isPrefixL (q0 :: qrest) (p0 :: prest) then
          match insertT (prest.drop qrest.length) v child with
          | some child' => (insert_child (q0 :: qrest, child') cs).map (DTree.node f)
          | none => none
        else
          match insertT (prest.drop (longest_prefix_length prest qrest)) v
              (.node none [(qrest.drop (longest_prefix_length prest qrest), child)]) with
          | some mid' =>
            (insert_child (p0 :: prest.take (longest_prefix_length prest qrest), mid') cs).map
              (DTree.node f)
          | none => none
      | none => (insert_child (p0 :: prest, .node (some v) []) cs).map (DTree.node f) := by
  rw [insertT]

theorem insertT_nil_spec (t : DTree) (v : Bytes) (hwf : WFT t) :
    ∃ t', insertT [] v t = some t' ∧ WFT t' ∧
      ∀ q, getSpec t' q = if ([] : HexPath) = q then some v else getSpec t q := by
  obtain ⟨f, cs⟩ := t
  refine ⟨.node (some v) cs, insertT_nil_eq v f cs, ?_, ?_⟩
  · exact WFT.mk (some v) cs (wft_cpwf hwf) (wft_children hwf)
  · intro q
    cases q with
    | nil =>
      rw [getSpec_nil, getSpec_nil, if_pos rfl]
      rfl
    | cons d r =>
      rw [if_neg (by simp), getSpec_node, getSpec_node]

theorem insertT_spec :
    ∀ (n : Nat) (p : HexPath), p.length ≤ n → ∀ (t : DTree) (v : Bytes), WFT t →
      ∃ t', insertT p v t = some t' ∧ WFT t' ∧
        ∀ q, getSpec t' q = if p = q then some v else getSpec t q := by
  intro n
  induction n with
  | zero =>
    intro p hlen t v hwf
    cases p with
    | nil => exact insertT_nil_spec t v hwf
    | cons p0 prest => simp at hlen
  | succ n ih =>
    intro p hlen t v hwf
    cases p with
    | nil => exact insertT_nil_spec t v hwf
    | cons p0 prest =>
      obtain ⟨f, cs⟩ := t
      have hcpwf := wft_cpwf hwf
      have hch := wft_children hwf
      have hplen : prest.length ≤ n := by
        simp only [List.length_cons] at hlen
        omega
      have hfp := findP_hd cs p0 hcpwf
      cases hh : hdc p0 cs with
      | none =>
        rw [hh] at hfp
        obtain ⟨cs', hins, hcpwf', hhd', hmem'⟩ :=
          ic_spec p0 prest (DTree.node (some v) []) cs hcpwf
        refine ⟨.node f cs', ?_, ?_, ?_⟩
        · rw [insertT_cons_eq, hfp]
          dsimp only
          rw [hins]
          rfl
        · refine WFT.mk f cs' hcpwf' ?_
          intro pc hpc
          rcases hmem' pc hpc with rfl | hm
          · exact WFT.mk (some v) [] rfl (fun pc hpc2 => by cases hpc2)
          · exact hch pc hm
        · intro q
          cases q with
          | nil =>
            rw [getSpec_nil, getSpec_nil, if_neg (by simp)]
            rfl
          | cons d r =>
            rw [getSpec_hdc f cs' hcpwf', getSpec_hdc f cs hcpwf, hhd' d]
            by_cases hd : d = p0
            · rw [hd, if_pos rfl, hh]
              dsimp only
              simp only [List.tail_cons]
              have hceq : isPrefixL (p0 :: prest) (p0 :: r) = isPrefixL prest r := by
                rw [isPrefixL_cons]
                simp
              rw [hceq, getSpec_leaf]
              by_cases hq : prest = r
              · subst hq
                rw [if_pos (isPrefixL_refl prest), List.drop_length, if_pos rfl,
                  if_pos rfl]
              · rw [if_neg (show ¬((p0 :: prest : HexPath) = p0 :: r) from by
                  intro hc; injection hc with _ h2; exact hq h2)]
                by_cases hpre : isPrefixL prest r = true
                · rw [if_pos hpre]
                  obtain ⟨ex, hex⟩ := (isPrefixL_iff _ _).mp hpre
                  have hdrop : r.drop prest.length = ex := by
                    rw [← hex, List.drop_left]
                  rw [hdrop]
                  cases hexn : ex with
                  | nil =>
                    exfalso
                    apply hq
                    rw [← hex, hexn, List.append_nil]
                  | cons x xs =>
                    rw [if_neg (by simp)]
                · rw [if_neg hpre]
            · rw [if_neg hd,
                if_neg (show ¬((p0 :: prest : HexPath) = d :: r) from by
                  intro hc; injection hc with h1 _; exact hd h1.symm)]
      | some pc =>
        rw [hh] at hfp
        dsimp only at hfp
        obtain ⟨hmem, hhd⟩ := hdc_mem_head hh
        have hwfc : WFT pc.2 := hch pc hmem
        cases hq0 : pc.1 with
        | nil => rw [hq0] at hhd; cases hhd
        | cons e qrest =>
          have hed : e = p0 := by
            rw [hq0] at hhd
            simpa using hhd
          rw [hed] at hq0
          rw [hq0] at hfp
          simp only [List.tail_cons] at hfp
          by_cases hpre : isPrefixL (p0 :: qrest) (p0 :: prest) = true
          · -- existing edge is a prefix of the inserted path: recurse into the child
            have hpre' : isPrefixL qrest prest = true := by
              rw [isPrefixL_cons] at hpre
              simpa using hpre
            have hdl : (prest.drop qrest.length).length ≤ n := by
              have := List.length_drop qrest.length prest
              omega
            obtain ⟨child', hins_c, hwf_c, hget_c⟩ :=
              ih (prest.drop qrest.length) hdl pc.2 v hwfc
            obtain ⟨cs', hins, hcpwf', hhd', hmem'⟩ :=
              ic_spec p0 qrest child' cs hcpwf
            refine ⟨.node f cs', ?_, ?_, ?_⟩
            · rw [insertT_cons_eq, hfp]
              dsimp only
              rw [if_pos hpre, hins_c]
              dsimp only
              rw [hins]
              rfl
            · refine WFT.mk f cs' hcpwf' ?_
              intro pc2 hpc2
              rcases hmem' pc2 hpc2 with rfl | hm
              · exact hwf_c
              · exact hch pc2 hm
            · intro q
              cases q with
              | nil =>
                rw [getSpec_nil, getSpec_nil, if_neg (by simp)]
                rfl
              | cons d r =>
                rw [getSpec_hdc f cs' hcpwf', getSpec_hdc f cs hcpwf, hhd' d]
                by_cases hd : d = p0
                · rw [hd, if_pos rfl, hh]
                  dsimp only
                  rw [hq0]
                  simp only [List.tail_cons]
                  have hceq : isPrefixL (p0 :: qrest) (p0 :: r) = isPrefixL qrest r := by
                    rw [isPrefixL_cons]
                    simp
                  rw [hceq]
                  by_cases hqr : isPrefixL qrest r = true
                  · rw [if_pos hqr, hget_c (r.drop qrest.length)]
                    obtain ⟨a1, ha1⟩ := (isPrefixL_iff _ _).mp hpre'
                    obtain ⟨b1, hb1⟩ := (isPrefixL_iff _ _).mp hqr
                    have hda : prest.drop qrest.length = a1 := by
                      rw [← ha1, List.drop_left]
                    have hdb : r.drop qrest.length = b1 := by
                      rw [← hb1, List.drop_left]
                    rw [hda, hdb]
                    by_cases heq2 : a1 = b1
                    · have hpr : prest = r := by
                        rw [← ha1, ← hb1, heq2]
                      rw [if_pos heq2,
                        if_pos (show (p0 :: prest : HexPath) = p0 :: r from by
                          rw [hpr])]
                    · rw [if_neg heq2,
                        if_neg (show ¬((p0 :: prest : HexPath) = p0 :: r) from by
                          intro hc
                          injection hc with _ h2
                          apply heq2
                          rw [← ha1] at h2
                          rw [← hb1] at h2
                          exact List.append_cancel_left h2),
                        if_pos hqr]
                  · rw [if_neg hqr,
                      if_neg (show ¬((p0 :: prest : HexPath) = p0 :: r) from by
                        intro hc
                        injection hc with _ h2
                        apply hqr
                        rw [← h2]
                        exact hpre'),
                      if_neg hqr]
                · rw [if_neg hd,
                    if_neg (show ¬((p0 :: prest : HexPath) = d :: r) from by
                      intro hc; injection hc with h1 _; exact hd h1.symm)]
          · -- paths diverge inside the edge: split the edge with a middle node
            have hnpq : isPrefixL qrest prest = false := by
              cases hb : isPrefixL qrest prest with
              | false => rfl
              | true =>
                exfalso
                apply hpre
                rw [isPrefixL_cons]
                simp [hb]
            have hkp : longest_prefix_length prest qrest ≤ prest.length :=
              lpl_le_left prest qrest
            have hkq : longest_prefix_length prest qrest < qrest.length :=
              lpl_lt_of_not_prefix hnpq
            have hqklen := List.length_drop (longest_prefix_length prest qrest) qrest
            cases hqk : qrest.drop (longest_prefix_length prest qrest) with
            | nil =>
              exfalso
              rw [hqk] at hqklen
              simp at hqklen
              omega
            | cons qk0 qkt =>
              have hwfmid : WFT (.node none [(qk0 :: qkt, pc.2)]) :=
                WFT.mk none [(qk0 :: qkt, pc.2)] rfl
                  (fun pc2 hpc2 => by
                    rcases List.mem_singleton.mp hpc2 with rfl
                    exact hwfc)
              have hdl : (prest.drop (longest_prefix_length prest qrest)).length ≤ n := by
                have := List.length_drop (longest_prefix_length prest qrest) prest
                omega
              obtain ⟨mid', hins_m, hwf_m, hget_m⟩ :=
                ih (prest.drop (longest_prefix_length prest qrest)) hdl
                  (.node none [(qk0 :: qkt, pc.2)]) v hwfmid
              obtain ⟨cs', hins, hcpwf', hhd', hmem'⟩ :=
                ic_spec p0 (prest.take (longest_prefix_length prest qrest)) mid' cs hcpwf
              refine ⟨.node f cs', ?_, ?_, ?_⟩
              · rw [insertT_cons_eq, hfp]
                dsimp only
                rw [if_neg hpre, hqk, hins_m]
                dsimp only
                rw [hins]
                rfl
              · refine WFT.mk f cs' hcpwf' ?_
                intro pc2 hpc2
                rcases hmem' pc2 hpc2 with rfl | hm
                · exact hwf_m
                · exact hch pc2 hm
              · intro q
                cases q with
                | nil =>
                  rw [getSpec_nil, getSpec_nil, if_neg (by simp)]
                  rfl
                | cons d r =>
                  rw [getSpec_hdc f cs' hcpwf', getSpec_hdc f cs hcpwf, hhd' d]
                  by_cases hd : d = p0
                  · rw [hd, if_pos rfl, hh]
                    dsimp only
                    rw [hq0]
                    simp only [List.tail_cons]
                    have hlent : (prest.take (longest_prefix_length prest qrest)).length =
                        longest_prefix_length prest qrest := by
                      rw [List.length_take]
                      omega
                    have hceq1 : isPrefixL
                        (p0 :: prest.take (longest_prefix_length prest qrest)) (p0 :: r) =
                        isPrefixL (prest.take (longest_prefix_length prest qrest)) r := by
                      rw [isPrefixL_cons]
                      simp
                    have hceq2 : isPrefixL (p0 :: qrest) (p0 :: r) = isPrefixL qrest r := by
                      rw [isPrefixL_cons]
                      simp
                    rw [hceq1, hceq2, hlent]
                    by_cases hk : isPrefixL (prest.take (longest_prefix_length prest qrest)) r = true
                    · rw [if_pos hk, hget_m (r.drop (longest_prefix_length prest qrest))]
                      obtain ⟨r2, hr2⟩ := (isPrefixL_iff _ _).mp hk
                      have hdropk : r.drop (longest_prefix_length prest qrest) = r2 := by
                        rw [← hr2, drop_len_append _ _ _ hlent]
                      rw [hdropk]
                      by_cases hq2 : prest.drop (longest_prefix_length prest qrest) = r2
                      · have hpr : prest = r := by
                          rw [← hr2, ← hq2, List.take_append_drop]
                        rw [if_pos hq2,
                          if_pos (show (p0 :: prest : HexPath) = p0 :: r from by
                            rw [hpr])]
                      · rw [if_neg hq2,
                          if_neg (show ¬((p0 :: prest : HexPath) = p0 :: r) from by
                            intro hc
                            injection hc with _ h2
                            subst h2
                            exact hq2 hdropk)]
                        rw [getSpec_single]
                        have hqlen : qrest.length =
                            longest_prefix_length prest qrest + (qkt.length + 1) := by
                          rw [hqk] at hqklen
                          simp only [List.length_cons] at hqklen
                          omega
                        have hceq3 : isPrefixL qrest r = isPrefixL (qk0 :: qkt) r2 := by
                          conv_lhs => rw [← List.take_append_drop
                            (longest_prefix_length prest qrest) qrest, ← hr2]
                          rw [hqk, ← lpl_take prest qrest, isPrefixL_append_same]
                        have hdr : r2.drop (qkt.length + 1) =
                            r.drop qrest.length := by
                          rw [← hdropk, List.drop_drop]
                          congr 1
                          omega
                        rw [hceq3, hdr]
                    · rw [if_neg hk,
                        if_neg (show ¬((p0 :: prest : HexPath) = p0 :: r) from by
                          intro hc
                          injection hc with _ h2
                          apply hk
                          rw [← h2]
                          exact (isPrefixL_iff _ _).mpr
                            (List.take_prefix (longest_prefix_length prest qrest) prest)),
                        if_neg (show ¬(isPrefixL qrest r = true) from by
                          intro hc
                          apply hk
                          apply (isPrefixL_iff _ _).mpr
                          have h1 : prest.take (longest_prefix_length prest qrest) <+:
                              qrest := by
                            rw [lpl_take prest qrest]
                            exact List.take_prefix _ _
                          exact h1.trans ((isPrefixL_iff _ _).mp hc))]
                  · rw [if_neg hd,
                      if_neg (show ¬((p0 :: prest : HexPath) = d :: r) from by
                        intro hc; injection hc with h1 _; exact hd h1.symm)]

theorem encTree_node (f : Option Bytes) (cs : List (HexPath × DTree)) :
    encTree (.node f cs) = encDataNode ⟨f, encChildren cs⟩ := by
  rw [encTree]

theorem mem_if_put (bs : Bytes) (s : Store) :
    bs ∈ (if bs ∈ s then s else bs :: s) := by
  by_cases h : bs ∈ s
  · rw [if_pos h]
    exact h
  · rw [if_neg h]
    exact List.mem_cons_self _ _

theorem mem_if_put_of_mem (bs b : Bytes) (s : Store) (h : b ∈ s) :
    b ∈ (if bs ∈ s then s else bs :: s) := by
  by_cases h2 : bs ∈ s
  · rw [if_pos h2]
    exact h
  · rw [if_neg h2]
    exact List.mem_cons_of_mem _ h

theorem sim_insert :
    ∀ (n : Nat) (p : HexPath), p.length ≤ n →
    ∀ (t t' : DTree) (v : Bytes) (nc : Nat) (s : Store),
      TreeStored s t → WFT t → insertT p v t = some t' →
      ∃ s' nc',
        insert_into_data_tree p v (encTree t) nc s = (.ok (encTree t', nc'), s') ∧
        (∀ b ∈ s, b ∈ s') ∧ TreeStored s' t' := by
  intro n
  induction n with
  | zero =>
    intro p hlen t t' v nc s hts hwf hins
    cases p with
    | cons p0 prest => simp at hlen
    | nil =>
      obtain ⟨f, cs⟩ := t
      rw [insertT_nil_eq] at hins
      injection hins with hins
      subst hins
      have hrun : insert_into_data_tree [] v (encTree (DTree.node f cs)) nc s =
          (.ok (encTree (.node (some v) cs), nc + 1),
           if encTree (.node (some v) cs) ∈ s then s
           else encTree (.node (some v) cs) :: s) := by
        rw [insert_into_data_tree]
        rw [bind_apply, treeStored_lookup hts]
        dsimp only
        rw [bind_apply, putT, put_bytes_apply]
        dsimp only
        rw [encTree_node]
        rfl
      refine ⟨_, _, hrun, ?_, ?_⟩
      · intro b hb
        exact mem_if_put_of_mem _ b s hb
      · refine TreeStored.mk (some v) cs ?_ ?_
        · exact mem_if_put _ s
        · intro pc hpc
          exact treeStored_mono (fun b hb => mem_if_put_of_mem _ b s hb)
            (treeStored_children hts pc hpc)
  | succ n ih =>
    intro p hlen t t' v nc s hts hwf hins
    cases p with
    | nil =>
      obtain ⟨f, cs⟩ := t
      rw [insertT_nil_eq] at hins
      injection hins with hins
      subst hins
      have hrun : insert_into_data_tree [] v (encTree (DTree.node f cs)) nc s =
          (.ok (encTree (.node (some v) cs), nc + 1),
           if encTree (.node (some v) cs) ∈ s then s
           else encTree (.node (some v) cs) :: s) := by
        rw [insert_into_data_tree]
        rw [bind_apply, treeStored_lookup hts]
        dsimp only
        rw [bind_apply, putT, put_bytes_apply]
        dsimp only
        rw [encTree_node]
        rfl
      refine ⟨_, _, hrun, ?_, ?_⟩
      · intro b hb
        exact mem_if_put_of_mem _ b s hb
      · refine TreeStored.mk (some v) cs ?_ ?_
        · exact mem_if_put _ s
        · intro pc hpc
          exact treeStored_mono (fun b hb => mem_if_put_of_mem _ b s hb)
            (treeStored_children hts pc hpc)
    | cons p0 prest =>
      obtain ⟨f, cs⟩ := t
      have hcpwf := wft_cpwf hwf
      have hch := wft_children hwf
      have hplen : prest.length ≤ n := by
        simp only [List.length_cons] at hlen
        omega
      have hfch := fch_hd (encChildren cs) p0 (by rw [encChildren_cpwf]; exact hcpwf)
      rw [encChildren_hdc] at hfch
      have hfp := findP_hd cs p0 hcpwf
      rw [insertT_cons_eq] at hins
      cases hh : hdc p0 cs with
      | none =>
        rw [hh] at hfch hfp
        simp only [Option.map_none'] at hfch
        dsimp only at hfch hfp
        rw [hfp] at hins
        dsimp only at hins
        obtain ⟨cs', hcs', ht'⟩ := Option.map_eq_some'.mp hins
        subst ht'
        have hrun : insert_into_data_tree (p0 :: prest) v (encTree (DTree.node f cs)) nc s =
            (.ok (encTree (.node f cs'), nc + 2),
             if encTree (.node f cs') ∈
                 (if encTree (.node (some v) []) ∈ s then s
                  else encTree (.node (some v) []) :: s) then
               (if encTree (.node (some v) []) ∈ s then s
                else encTree (.node (some v) []) :: s)
             else encTree (.node f cs') ::
               (if encTree (.node (some v) []) ∈ s then s
                else encTree (.node (some v) []) :: s)) := by
          rw [insert_into_data_tree]
          rw [bind_apply, treeStored_lookup hts]
          dsimp only
          rw [bind_apply, liftE_apply]
          rw [show (dataNodeOf (DTree.node f cs)).children = encChildren cs from rfl,
            hfch]
          dsimp only
          rw [bind_apply, putT, put_bytes_apply]
          dsimp only
          rw [data_node_insert_child]
          rw [show (dataNodeOf (DTree.node f cs)).children = encChildren cs from rfl]
          rw [show encDataNode { field := some v, children := [] } =
            encTree (.node (some v) []) from by rw [encTree_node]; rfl]
          rw [ic_enc (p0 :: prest) (.node (some v) []) cs, hcs']
          simp only [Option.map_some']
          rw [bind_apply, putT, put_bytes_apply]
          dsimp only
          rw [encTree_node]
          rfl
        refine ⟨_, _, hrun, ?_, ?_⟩
        · intro b hb
          exact mem_if_put_of_mem _ b _ (mem_if_put_of_mem _ b s hb)
        · obtain ⟨r, hr, _, _, hmem'⟩ :=
            ic_spec p0 prest (DTree.node (some v) []) cs hcpwf
          rw [hr] at hcs'
          injection hcs' with hrc
          subst hrc
          refine TreeStored.mk f r ?_ ?_
          · exact mem_if_put _ _
          · intro pc2 hpc2
            rcases hmem' pc2 hpc2 with rfl | hm
            · refine TreeStored.mk (some v) [] ?_ ?_
              · exact mem_if_put_of_mem _ _ _ (mem_if_put _ s)
              · intro pc3 hpc3
                cases hpc3
            · exact treeStored_mono
                (fun b hb => mem_if_put_of_mem _ b _ (mem_if_put_of_mem _ b s hb))
                (treeStored_children hts pc2 hm)
      | some pc =>
        rw [hh] at hfch hfp
        simp only [Option.map_some'] at hfch
        dsimp only at hfch hfp
        obtain ⟨hmem, hhd⟩ := hdc_mem_head hh
        have hwfc := hch pc hmem
        have htsc : TreeStored s pc.2 := treeStored_children hts pc hmem
        cases hq0 : pc.1 with
        | nil => rw [hq0] at hhd; cases hhd
        | cons e qrest =>
          have hed : e = p0 := by
            rw [hq0] at hhd
            simpa using hhd
          rw [hed] at hq0
          rw [hq0] at hfch hfp
          simp only [List.tail_cons] at hfch hfp
          rw [hfp] at hins
          dsimp only at hins
          by_cases hpre : isPrefixL (p0 :: qrest) (p0 :: prest) = true
          · rw [if_pos hpre] at hins
            cases hic : insertT (prest.drop qrest.length) v pc.2 with
            | none => rw [hic] at hins; simp at hins
            | some child' =>
              rw [hic] at hins
              dsimp only at hins
              obtain ⟨cs', hcs', ht'⟩ := Option.map_eq_some'.mp hins
              subst ht'
              have hdl : (prest.drop qrest.length).length ≤ n := by
                have := List.length_drop qrest.length prest
                omega
              obtain ⟨s1, nc1, hrun1, hgrow1, hst1⟩ :=
                ih (prest.drop qrest.length) hdl pc.2 child' v nc s htsc hwfc hic
              have hrun : insert_into_data_tree (p0 :: prest) v
                  (encTree (DTree.node f cs)) nc s =
                  (.ok (encTree (.node f cs'), nc1 + 1),
                   if encTree (.node f cs') ∈ s1 then s1
                   else encTree (.node f cs') :: s1) := by
                rw [insert_into_data_tree]
                rw [bind_apply, treeStored_lookup hts]
                dsimp only
                rw [bind_apply, liftE_apply]
                rw [show (dataNodeOf (DTree.node f cs)).children = encChildren cs
                  from rfl, hfch]
                dsimp only
                rw [if_pos hpre, bind_apply, hrun1]
                dsimp only
                rw [data_node_insert_child]
                rw [show (dataNodeOf (DTree.node f cs)).children = encChildren cs
                  from rfl]
                rw [ic_enc (p0 :: qrest) child' cs, hcs']
                simp only [Option.map_some']
                rw [bind_apply, putT, put_bytes_apply]
                dsimp only
                rw [encTree_node]
                rfl
              refine ⟨_, _, hrun, ?_, ?_⟩
              · intro b hb
                exact mem_if_put_of_mem _ b s1 (hgrow1 b hb)
              · obtain ⟨r, hr, _, _, hmem'⟩ := ic_spec p0 qrest child' cs hcpwf
                rw [hr] at hcs'
                injection hcs' with hrc
                subst hrc
                refine TreeStored.mk f r ?_ ?_
                · exact mem_if_put _ s1
                · intro pc2 hpc2
                  rcases hmem' pc2 hpc2 with rfl | hm
                  · exact treeStored_mono
                      (fun b hb => mem_if_put_of_mem _ b s1 hb) hst1
                  · exact treeStored_mono
                      (fun b hb => mem_if_put_of_mem _ b s1 (hgrow1 b hb))
                      (treeStored_children hts pc2 hm)
          · rw [if_neg hpre] at hins
            have hnpq : isPrefixL qrest prest = false := by
              cases hb : isPrefixL qrest prest with
              | false => rfl
              | true =>
                exfalso
                apply hpre
                rw [isPrefixL_cons]
                simp [hb]
            have hkq : longest_prefix_length prest qrest < qrest.length :=
              lpl_lt_of_not_prefix hnpq
            have hqklen := List.length_drop (longest_prefix_length prest qrest) qrest
            cases hqk : qrest.drop (longest_prefix_length prest qrest) with
            | nil =>
              exfalso
              rw [hqk] at hqklen
              simp at hqklen
              omega
            | cons qk0 qkt =>
              rw [hqk] at hins
              cases hic : insertT (prest.drop (longest_prefix_length prest qrest)) v
                  (.node none [(qk0 :: qkt, pc.2)]) with
              | none => rw [hic] at hins; simp at hins
              | some mid' =>
                rw [hic] at hins
                dsimp only at hins
                obtain ⟨cs', hcs', ht'⟩ := Option.map_eq_some'.mp hins
                subst ht'
                have hwfmid : WFT (.node none [(qk0 :: qkt, pc.2)]) :=
                  WFT.mk none [(qk0 :: qkt, pc.2)] rfl
                    (fun pc2 hpc2 => by
                      rcases List.mem_singleton.mp hpc2 with rfl
                      exact hwfc)
                have hdl : (prest.drop (longest_prefix_length prest qrest)).length ≤ n := by
                  have := List.length_drop (longest_prefix_length prest qrest) prest
                  omega
                have htsmid : TreeStored
                    (if encTree (.node none [(qk0 :: qkt, pc.2)]) ∈ s then s
                     else encTree (.node none [(qk0 :: qkt, pc.2)]) :: s)
                    (.node none [(qk0 :: qkt, pc.2)]) := by
                  refine TreeStored.mk none [(qk0 :: qkt, pc.2)] ?_ ?_
                  · exact mem_if_put _ s
                  · intro pc2 hpc2
                    rcases List.mem_singleton.mp hpc2 with rfl
                    exact treeStored_mono (fun b hb => mem_if_put_of_mem _ b s hb) htsc
                obtain ⟨s2, nc2, hrun2, hgrow2, hst2⟩ :=
                  ih (prest.drop (longest_prefix_length prest qrest)) hdl
                    (.node none [(qk0 :: qkt, pc.2)]) mid' v (nc + 1) _
                    htsmid hwfmid hic
                have hrun : insert_into_data_tree (p0 :: prest) v
                    (encTree (DTree.node f cs)) nc s =
                    (.ok (encTree (.node f cs'), nc2 + 1),
                     if encTree (.node f cs') ∈ s2 then s2
                     else encTree (.node f cs') :: s2) := by
                  rw [insert_into_data_tree]
                  rw [bind_apply, treeStored_lookup hts]
                  dsimp only
                  rw [bind_apply, liftE_apply]
                  rw [show (dataNodeOf (DTree.node f cs)).children = encChildren cs
                    from rfl, hfch]
                  dsimp only
                  rw [if_neg hpre]
                  rw [bind_apply, putT, put_bytes_apply]
                  dsimp only
                  rw [hqk]
                  rw [show encDataNode
                      { field := none, children := [(qk0 :: qkt, encTree pc.2)] } =
                    encTree (.node none [(qk0 :: qkt, pc.2)]) from by
                      rw [encTree_node]
                      rfl]
                  rw [bind_apply, hrun2]
                  dsimp only
                  rw [data_node_insert_child]
                  rw [show (dataNodeOf (DTree.node f cs)).children = encChildren cs
                    from rfl]
                  rw [ic_enc (p0 :: prest.take (longest_prefix_length prest qrest))
                    mid' cs, hcs']
                  simp only [Option.map_some']
                  rw [bind_apply, putT, put_bytes_apply]
                  dsimp only
                  rw [encTree_node]
                  rfl
                refine ⟨_, _, hrun, ?_, ?_⟩
                · intro b hb
                  exact mem_if_put_of_mem _ b s2
                    (hgrow2 b (mem_if_put_of_mem _ b s hb))
                · obtain ⟨r, hr, _, _, hmem'⟩ :=
                    ic_spec p0 (prest.take (longest_prefix_length prest qrest)) mid'
                      cs hcpwf
                  rw [hr] at hcs'
                  injection hcs' with hrc
                  subst hrc
                  refine TreeStored.mk f r ?_ ?_
                  · exact mem_if_put _ s2
                  · intro pc2 hpc2
                    rcases hmem' pc2 hpc2 with rfl | hm
                    · exact treeStored_mono
                        (fun b hb => mem_if_put_of_mem _ b s2 hb) hst2
                    · exact treeStored_mono
                        (fun b hb => mem_if_put_of_mem _ b s2
                          (hgrow2 b (mem_if_put_of_mem _ b s hb)))
                        (treeStored_children hts pc2 hm)


theorem fold_insert_spec :
    ∀ (entries : List (HexPath × Bytes)),
      entries.Pairwise (fun a b => a.1 ≠ b.1) →
      ∀ (t : DTree) (nc : Nat) (s : Store), WFT t → TreeStored s t →
      ∃ t' nc' s',
        List.foldlM (fun acc pv => insert_into_data_tree pv.1 pv.2 acc.1 acc.2)
          (encTree t, nc) entries s = (.ok (encTree t', nc'), s') ∧
        WFT t' ∧ TreeStored s' t' ∧ (∀ b ∈ s, b ∈ s') ∧
        ∀ q, getSpec t' q =
          ((entries.find? (fun e => e.1 == q)).map (fun e => e.2)).or
            (getSpec t q) := by
  intro entries
  induction entries with
  | nil =>
    intro hdist t nc s hwf hts
    refine ⟨t, nc, s, ?_, hwf, hts, fun b hb => hb, ?_⟩
    · rw [List.foldlM_nil, pure_apply]
    · intro q
      rw [List.find?_nil]
      rfl
  | cons e rest ih =>
    intro hdist t nc s hwf hts
    obtain ⟨hhead, hrest⟩ := List.pairwise_cons.mp hdist
    obtain ⟨t1, hinsT, hwf1, hget1⟩ :=
      insertT_spec e.1.length e.1 le_rfl t e.2 hwf
    obtain ⟨s1, nc1, hrun1, hgrow1, hst1⟩ :=
      sim_insert e.1.length e.1 le_rfl t t1 e.2 nc s hts hwf hinsT
    obtain ⟨t2, nc2, s2, hrun2, hwf2, hst2, hgrow2, hget2⟩ :=
      ih hrest t1 nc1 s1 hwf1 hst1
    refine ⟨t2, nc2, s2, ?_, hwf2, hst2, ?_, ?_⟩
    · rw [List.foldlM_cons, bind_apply]
      dsimp only
      rw [hrun1]
      exact hrun2
    · intro b hb
      exact hgrow2 b (hgrow1 b hb)
    · intro q
      rw [hget2 q, hget1 q, List.find?]
      by_cases hq : e.1 = q
      · have hb : (e.1 == q) = true := by simpa using hq
        rw [hb, if_pos hq]
        have hnone : rest.find? (fun x => x.1 == q) = none := by
          apply List.find?_eq_none.mpr
          intro x hx
          have := hhead x hx
          simp only [beq_iff_eq]
          rw [← hq]
          exact fun hc => this hc.symm
        rw [hnone]
        rfl
      · have hb : (e.1 == q) = false := by simpa using hq
        rw [hb, if_neg hq]


/-! ## Claim theorems -/

/-- C4: the claim states `field_stake().path = bytes_to_path(b"stake")`,
distinct from `field_balance().path`.  In the source `field_stake`
builds its path from `b"balance"`: the two paths coincide (and differ
from `bytes_to_path(b"stake")`), so a stake write lands on the balance
field. -/
theorem field_stake_path_equals_balance_path :
    field_stake.path = field_balance.path ∧
    field_stake.path = bytes_to_path [98, 97, 108, 97, 110, 99, 101] ∧
    field_stake.path ≠ bytes_to_path [115, 116, 97, 107, 101] := by decide

/-- C2: the claim states that under the stake-sum precondition
`stake_indexed_account` walks into children and never errors.  On
`nodeQ` — an internal node whose `stats.stake` (1) equals the sum of its
children's stakes, with `k = 0 < 1` — the source falls through its
child loop (the `continue` targets the for-loop and the cursor is never
advanced) and fails with the stake-mismatch message even though the
stakes match; only a direct call on a depth-64 leaf returns the account. -/
theorem stake_indexed_account_fails_on_internal_node :
    nodeQ.body.stats.stake = leafT.body.stats.stake ∧
    0 < nodeQ.body.stats.stake ∧
    stake_indexed_account leafT 0 storeC2 = (.ok minerKey, storeC2) ∧
    stake_indexed_account nodeQ 0 storeC2 =
      (.error "total stake does not equal sum of child node total stakes!", storeC2) := by
  decide

set_option maxRecDepth 40000 in
/-- C1: the claim states `verify_endorsed_main_block` succeeds only if
the pre-signed endorsement check passes and the miner signature
verifies.  `mainX` carries NO signer signatures — the pre-signed check
fails with "not enough main signatures" — yet `verify_endorsed_main_block`
succeeds, because the source calls `verify_endorsed_pre_signed_main_block`
without awaiting the returned future (missing `.await?`) and discards
it. -/
theorem verify_endorsed_main_block_skips_pre_signed_check :
    mainX.block.signatures = [] ∧
    verify_endorsed_pre_signed_main_block 9 mainX.block storeC1 =
      (.error "not enough main signatures", storeC1) ∧
    verify_endorsed_main_block 9 mainX storeC1 = (.ok (), storeC1) := by decide

set_option maxRecDepth 40000 in
/-- C3: the claim states `get_data_field_bytes(acct, p)` resolves the
read against `acct`'s own account leaf.  With `this_account = B` and a
read of account `A`'s root field, the source returns B's value `[20]`
(it passes `self.this_account` to `lookup_account`), while the
spec-modelled resolver returns A's value `[10]`. -/
theorem get_data_field_bytes_ignores_acct_argument :
    acctA ≠ acctB ∧
    atC3.this_account = acctB ∧
    AccountTransform.get_data_field_bytes atC3 acctA [] storeC3 =
      (.ok (some [20]), storeC3) ∧
    spec_resolve_read atC3 acctA [] storeC3 = (.ok (some [10]), storeC3) ∧
    dnA.field = some [10] := by decide

set_option maxRecDepth 40000 in
/-- C5: the claim states a well-formed send (valid signature, fee and
amount within balance, no pre-existing `send/{hash}` field) succeeds and
stages the balance and send-record writes.  On a plain initialized
account (fields `balance` and `public_key` only) every hypothesis of
the claim holds — the signature argument verifies, balance is 100, fee
5, amount 25, and no send record exists — yet `run_action` fails: the
duplicate-send lookup reaches `rh_follow_path`, which bails with
"RH node not found" when the send path diverges from the existing edges
instead of reporting the field as absent. -/
theorem run_action_send_fails_on_natural_account_tree :
    verify_signature_argument acctS act5 4 = .ok () ∧
    AccountTransform.base_read at5 field_balance.path store5 =
      (.ok (some (wrNat 100)), store5) ∧
    act5.fee = 5 ∧
    lookup_data_in_account leafS (field_send (encSendInfo si5)).path store5 =
      (.error "RH node not found", store5) ∧
    run_action at5 act5 store5 = (.error "RH node not found", store5) := by decide


/-- C7: `next_main_block_body` fails when the timestamp is not a
multiple of `timestamp_period_ms` or does not advance past the previous
block's, or when the top quorum node's path is nonempty; and when the
checks pass (the top being endorsed if it differs from the previous
tree) it returns the body with `prev`, `version + 1`, the timestamp,
the tree, and the previous block's options hash. -/
theorem next_main_block_body_checks_and_result
    (fuel : Nat) (t : Int) (prev_hash top_hash : Bytes) (s : Store)
    (prev : MainBlock) (opts : MainOptions) (top : QuorumNode)
    (hpm : prev_hash ∈ s) (hpd : decOf rdMainBlock prev_hash = some prev)
    (hom : prev.block.body.options ∈ s)
    (hod : decOf rdMainOptions prev.block.body.options = some opts)
    (htm : top_hash ∈ s) (htd : decOf rdQuorumNode top_hash = some top)
    (hper : opts.timestamp_period_ms ≠ 0) :
    ((t.tmod (opts.timestamp_period_ms : Int) ≠ 0 ∨ t ≤ prev.block.body.timestamp_ms) →
      next_main_block_body fuel t prev_hash top_hash s =
        (.error "invalid timestamp in next_main_block_body", s)) ∧
    (t.tmod (opts.timestamp_period_ms : Int) = 0 → prev.block.body.timestamp_ms < t →
      top.body.path ≠ [] →
      next_main_block_body fuel t prev_hash top_hash s =
        (.error "next_main_block_body must be called with root QuorumNode", s)) ∧
    (t.tmod (opts.timestamp_period_ms : Int) = 0 → prev.block.body.timestamp_ms < t →
      top.body.path = [] →
      (top_hash = prev.block.body.tree ∨
        verify_endorsed_quorum_node fuel prev top s = (.ok (), s)) →
      next_main_block_body fuel t prev_hash top_hash s =
        (.ok ⟨some prev_hash, prev.block.body.version + 1, t, top_hash,
          prev.block.body.options⟩, s)) := by
  have hp := lookupT_mem rdMainBlock prev_hash s hpm prev hpd
  have ho := lookupT_mem rdMainOptions prev.block.body.options s hom opts hod
  have ht := lookupT_mem rdQuorumNode top_hash s htm top htd
  refine ⟨?_, ?_, ?_⟩
  · intro hbad
    unfold next_main_block_body
    simp only [bind_apply, hp, ho, if_neg hper]
    rw [if_pos hbad]
    rfl
  · intro h1 h2 h3
    unfold next_main_block_body
    simp only [bind_apply, hp, ho, ht, if_neg hper]
    rw [if_neg (by push_neg; exact ⟨h1, h2⟩)]
    simp only [bind_apply, ht]
    rw [if_pos (by simpa using h3)]
    rfl
  · intro h1 h2 h3 h4
    unfold next_main_block_body
    simp only [bind_apply, hp, ho, ht, if_neg hper]
    rw [if_neg (by push_neg; exact ⟨h1, h2⟩)]
    simp only [bind_apply, ht]
    rw [if_neg (by simpa using h3)]
    rcases h4 with h4 | h4
    · rw [if_neg (by simpa using h4)]
      rfl
    · by_cases he : top_hash = prev.block.body.tree
      · rw [if_neg (by simpa using he)]
        rfl
      · rw [if_pos (by simpa using he)]
        simp only [bind_apply, h4]
        rfl

set_option maxRecDepth 40000 in
/-- Witness for C7: against `storeC3`, with the top node equal to the
previous tree, `next_main_block_body` succeeds and returns the expected
body. -/
theorem next_main_block_body_checks_and_result_witness :
    next_main_block_body 1 2 (encMainBlock mbC3) (encQuorumNode rootC3) storeC3 =
      (.ok ⟨some (encMainBlock mbC3), 1, 2, encQuorumNode rootC3,
        encMainOptions optsX⟩, storeC3) :=
  (next_main_block_body_checks_and_result 1 2 (encMainBlock mbC3)
    (encQuorumNode rootC3) storeC3 mbC3 optsX rootC3
    (by decide) (by decide) (by decide) (by decide) (by decide) (by decide)
    (by decide)).2.2 (by decide) (by decide) (by decide) (Or.inl (by decide))

/-- C10: a signature list containing two signatures whose keys hash to
the same signer account makes `signatures_to_signers` fail outright
(with the duplicate-keys error when all signatures verify, with the
invalid-signature error otherwise), and consequently
`verify_endorsed_quorum_node` (whatever its fuel, store, and node
holding that list) and `verify_endorsed_pre_signed_main_block` never
succeed on it. -/
theorem duplicate_signers_rejected (sigs : List Signature)
    (hdup : ¬ (sigs.map Signature.account).Nodup) :
    (∀ m : Bytes, ∃ e, signatures_to_signers sigs m = .error e) ∧
    (∀ (fuel : Nat) (lm : MainBlock) (node : QuorumNode) (s : Store) (sigsh : Bytes),
      node.signatures = some sigsh → sigsh ∈ s →
      decOf (rdList rdSignature) sigsh = some sigs →
      (verify_endorsed_quorum_node fuel lm node s).1 ≠ .ok ()) ∧
    (∀ (fuel : Nat) (psmb : PreSignedMainBlock) (s : Store),
      psmb.signatures = sigs →
      (verify_endorsed_pre_signed_main_block fuel psmb s).1 ≠ .ok ()) := by
  refine ⟨fun m => signatures_to_signers_dup sigs m hdup, ?_, ?_⟩
  · intro fuel lm node s sigsh hsig hm hd
    cases fuel with
    | zero => simp [verify_endorsed_quorum_node, throwM]
    | succ f =>
      unfold verify_endorsed_quorum_node
      simp only [bind_apply, hsig]
      cases hw : verify_well_formed_quorum_node_body lm node.body s with
      | mk r s1 =>
        have hs1 : s1 = s := by
          have := mreads_verify_well_formed_quorum_node_body lm node.body s
          rw [hw] at this
          exact this
        cases r with
        | error e => simp
        | ok a =>
          rw [hs1]
          dsimp only
          rw [lookupT_mem _ _ _ hm _ hd]
          dsimp only
          obtain ⟨e, he⟩ := signatures_to_signers_dup sigs (encQuorumNodeBody node.body) hdup
          simp [he, liftE]
  · intro fuel psmb s hsigs
    unfold verify_endorsed_pre_signed_main_block
    cases hp : psmb.body.prev with
    | none => simp [throwM]
    | some prev_hash =>
      simp only [bind_apply]
      cases hl : lookupT rdMainBlock prev_hash s with
      | mk r s1 =>
        have hs1 : s1 = s := by
          have := mreads_lookupT rdMainBlock prev_hash s
          rw [hl] at this
          exact this
        cases r with
        | error e => simp
        | ok prev =>
          cases hw : verify_well_formed_main_block_body psmb.body s1 with
          | mk r2 s2 =>
            have hs2 : s2 = s1 := by
              have := mreads_verify_well_formed_main_block_body psmb.body s1
              rw [hw] at this
              exact this
            cases r2 with
            | error e => simp [hw]
            | ok a =>
              obtain ⟨e, he⟩ := signatures_to_signers_dup sigs (encMainBlockBody psmb.body) hdup
              simp [hw, hsigs, he, liftE]

/-- Witness for C10: the concrete duplicate list `[sigD, sigD]` is
rejected by the signature check, by quorum-node endorsement, and by
pre-signed main-block endorsement. -/
theorem duplicate_signers_rejected_witness :
    (∃ e, signatures_to_signers [sigD, sigD] (encQuorumNodeBody nodeD.body) = .error e) ∧
    (verify_endorsed_quorum_node 5 blockP nodeD storeD).1 ≠ .ok () ∧
    (verify_endorsed_pre_signed_main_block 5 ⟨bodyB1, [sigD, sigD]⟩ storeD).1 ≠ .ok () :=
  ⟨(duplicate_signers_rejected [sigD, sigD] (by decide)).1 _,
   (duplicate_signers_rejected [sigD, sigD] (by decide)).2.1 5 blockP nodeD storeD
     sigshD (by decide) (by decide) (by decide),
   (duplicate_signers_rejected [sigD, sigD] (by decide)).2.2 5
     ⟨bodyB1, [sigD, sigD]⟩ storeD (by decide)⟩


/-- C6: `replace_children` recomputes the node's stats from scratch
(zero, `new_nodes = 1`, `prize = self.prize`) and clears the
signatures; every child's `stake` is added, the iteration-scoped
`fee`/`gas`/`prize`/`new_nodes` are added exactly for children whose
`last_main` equals the parent's, and the call fails when any child's
absolute path is not the parent's path followed by its edge suffix. -/
theorem replace_children_recomputes_stats (self : QuorumNode)
    (cs : List (HexPath × QuorumNode))
    (new_children : List (HexPath × Bytes)) (s : Store)
    (hnc : new_children = cs.map (fun pc => (pc.1, encQuorumNode pc.2)))
    (hmem : ∀ pc ∈ cs, encQuorumNode pc.2 ∈ s) :
    ((∀ pc ∈ cs, pc.2.body.path = self.body.path ++ pc.1) →
      QuorumNode.replace_children self new_children s =
        (.ok ⟨{ self.body with
            children := new_children,
            stats := cs.foldl (stats_plus_child self.body.last_main)
              ⟨0, 0, 1, self.body.prize, 0⟩ }, none⟩, s)) ∧
    ((∃ pc ∈ cs, pc.2.body.path ≠ self.body.path ++ pc.1) →
      (QuorumNode.replace_children self new_children s).1 =
        .error "quorum child node has wrong path") := by
  constructor
  · intro hgood
    unfold QuorumNode.replace_children
    subst hnc
    simp only [bind_apply]
    rw [rc_fold_ok cs _ s hmem (by simpa using hgood)]
    rfl
  · intro hbad
    unfold QuorumNode.replace_children
    subst hnc
    simp only [bind_apply]
    cases hf : (cs.map (fun pc => (pc.1, encQuorumNode pc.2))).foldlM
        replace_children_step { self.body with
          children := cs.map (fun pc => (pc.1, encQuorumNode pc.2)),
          stats := { QuorumNodeStats.zero with
            prize := self.body.prize, new_nodes := 1 } } s with
    | mk r s1 =>
      have h2 := rc_fold_err cs { self.body with
          children := cs.map (fun pc => (pc.1, encQuorumNode pc.2)),
          stats := { QuorumNodeStats.zero with
            prize := self.body.prize, new_nodes := 1 } } s hmem (by simpa using hbad)
      rw [hf] at h2
      simp only at h2
      subst h2
      simp [hf]

set_option maxRecDepth 40000 in
/-- Witness for C6: replacing `nodeQ`'s children with the single leaf
`leafT` recomputes `stats = (fee 0, gas 0, new_nodes 2, prize 0,
stake 1)` and clears the signatures. -/
theorem replace_children_recomputes_stats_witness :
    QuorumNode.replace_children nodeQ [(p64x, encQuorumNode leafT)] storeC2 =
      (.ok ⟨{ nodeQ.body with
          children := [(p64x, encQuorumNode leafT)],
          stats := ⟨0, 0, 2, 0, 1⟩ }, none⟩, storeC2) :=
  (replace_children_recomputes_stats nodeQ [(p64x, leafT)]
    [(p64x, encQuorumNode leafT)] storeC2 rfl (by decide)).1 (by decide)


/-- C9: a send whose amount exceeds the balance left after the fee
(`b - fee < amount`) makes `run_action` fail, and the failure leaves no
persistent effect: `add_action_to_account` propagates the error without
producing a new account leaf, and the content store is returned exactly
as it was (so no staged overlay write reaches any data tree and every
existing store entry is unchanged). -/
theorem run_action_insufficient_balance_no_effect
    (s : Store) (acct lmB recipient message : Bytes) (initSpec : Option Bytes)
    (amount fee b prize : Nat) (lm : MainBlock) (prevNode : QuorumNode) (dth : Bytes)
    (act actZ : Action)
    (hlmB : lmB = encMainBlock lm)
    (hactZ : actZ = ⟨lmB, fee, sendCmd,
      [wrBytes recipient, wrNat amount, wrOpt wrBytes initSpec, wrBytes message, []]⟩)
    (hact : act = ⟨lmB, fee, sendCmd,
      [wrBytes recipient, wrNat amount, wrOpt wrBytes initSpec, wrBytes message,
        encSignature (mkSig acct (encAction actZ))]⟩)
    (hbal : AccountTransform.base_read ⟨false, acct, lmB, []⟩ field_balance.path s =
      (.ok (some (wrNat b)), s))
    (hfee : fee ≤ b) (hover : b - fee < amount)
    (hacct : lookup_account lm.block.body acct s = (.ok (some prevNode), s))
    (hdt : prevNode.body.data_tree = some dth) :
    run_action ⟨false, acct, lmB, []⟩ act s = (.error "not enough balance for send", s) ∧
    add_action_to_account lm acct act prize s =
      (.error "not enough balance for send", s) := by
  have hrun : run_action ⟨false, acct, lmB, []⟩ act s =
      (.error "not enough balance for send", s) := by
    subst hactZ hact
    unfold run_action pay_fee do_send
    simp only [AccountTransform.get_data_field_or_error, AccountTransform.get_data_field,
      AccountTransform.get_data_field_bytes, AccountTransform.set_data_field,
      AccountTransform.set_data_field_bytes, get_arg, verify_signature_argument,
      liftE_apply, bind_apply, pure_apply, throwM_apply,
      List.getElem?_cons_zero, List.getElem?_cons_succ, List.set_cons_zero,
      List.set_cons_succ, decOf_wrBytes, decOf_wrNat, decOf_wrOpt_wrBytes,
      decOf_encSignature, account_mkSig, verify_sig_mkSig, mapGet_nil, mapGet_cons,
      mapInsert_nil, hbal, ne_eq, ite_not, if_true, if_false, Bool.false_eq_true,
      eq_self_iff_true, decOf_encU128, except_bind_ok, except_bind_err]
    rw [if_neg (Nat.not_lt.mpr hfee)]
    simp only [AccountTransform.get_data_field_or_error, AccountTransform.get_data_field,
      AccountTransform.get_data_field_bytes, AccountTransform.set_data_field,
      AccountTransform.set_data_field_bytes, liftE_apply, bind_apply, pure_apply,
      throwM_apply, mapGet_cons, decOf_encU128, eq_self_iff_true, if_true, ne_eq,
      ite_not]
    rw [if_pos hover]
    rfl
  refine ⟨hrun, ?_⟩
  unfold add_action_to_account
  simp only [bind_apply, hacct, hdt, pure_apply, ← hlmB, hrun]

set_option maxRecDepth 80000 in
/-- Witness for C9: the S5 scenario — balance 100, fee 5, amount 200 —
fails in `run_action` and in `add_action_to_account`, leaving `store5`
untouched. -/
theorem run_action_insufficient_balance_no_effect_witness :
    run_action ⟨false, acctS, encMainBlock mb5, []⟩ act9 store5 =
      (.error "not enough balance for send", store5) ∧
    add_action_to_account mb5 acctS act9 0 store5 =
      (.error "not enough balance for send", store5) :=
  run_action_insufficient_balance_no_effect store5 acctS (encMainBlock mb5) recipC5
    [] none 200 5 100 0 mb5 leafS (encDataNode dataS) act9 actZ9 rfl rfl rfl
    (by decide) (by decide) (by decide) (by decide) (by decide)


/-- C8: insert round-trip on the data tree.  Folding
`insert_into_data_tree` over any list of `(path, value)` pairs with
pairwise-distinct paths, starting from the stored empty data node,
succeeds, only grows the store, and afterwards reading any path `q`
under the resulting root — following the radix edges and taking the
field on an exact hit, as `data_tree_get` does — returns exactly the
value the input list assigns to `q`, and `none` on every non-inserted
path: traversal reproduces exactly the input mapping. -/
theorem insert_into_data_tree_roundtrip
    (entries : List (HexPath × Bytes)) (s : Store)
    (hdist : entries.Pairwise (fun a b => a.1 ≠ b.1))
    (hs : encDataNode ⟨none, []⟩ ∈ s) :
    ∃ rootH nc s',
      List.foldlM (fun acc pv => insert_into_data_tree pv.1 pv.2 acc.1 acc.2)
        (encDataNode ⟨none, []⟩, 0) entries s = (.ok (rootH, nc), s') ∧
      (∀ b ∈ s, b ∈ s') ∧
      ∀ q, data_tree_get s' rootH q =
        (entries.find? (fun e => e.1 == q)).map (fun e => e.2) := by
  have hwf0 : WFT (.node none []) := WFT.mk none [] rfl (fun pc hpc => by cases hpc)
  have hts0 : TreeStored s (.node none []) :=
    TreeStored.mk none [] hs (fun pc hpc => by cases hpc)
  obtain ⟨t', nc', s', hrun, hwf', hst', hgrow, hget⟩ :=
    fold_insert_spec entries hdist (.node none []) 0 s hwf0 hts0
  refine ⟨encTree t', nc', s', hrun, hgrow, ?_⟩
  intro q
  rw [data_tree_get_eq s' t' q hst', tgetP_eq_getSpec t' q hwf', hget q]
  have h0 : getSpec (.node none []) q = none := by
    cases q with
    | nil => rw [getSpec_nil]; rfl
    | cons d r => rw [getSpec_node]; rfl
  rw [h0]
  cases hf : (entries.find? (fun e => e.1 == q)) with
  | none => rfl
  | some e => rfl


/-- Witness for C8: inserting `[1,2] ↦ [5]` and then `[1] ↦ [7]` (an
edge split) into the empty tree reproduces exactly that mapping. -/
theorem insert_into_data_tree_roundtrip_witness :
    (([([1, 2], [5]), ([1], [7])] : List (HexPath × Bytes)).Pairwise
        (fun a b => a.1 ≠ b.1)) ∧
    encDataNode ⟨none, []⟩ ∈ ([encDataNode ⟨none, []⟩] : Store) ∧
    ∃ rootH nc s',
      List.foldlM (fun acc pv => insert_into_data_tree pv.1 pv.2 acc.1 acc.2)
        (encDataNode ⟨none, []⟩, 0) ([([1, 2], [5]), ([1], [7])] : List (HexPath × Bytes))
        [encDataNode ⟨none, []⟩] = (.ok (rootH, nc), s') ∧
      (∀ b ∈ ([encDataNode ⟨none, []⟩] : Store), b ∈ s') ∧
      ∀ q, data_tree_get s' rootH q =
        (([([1, 2], [5]), ([1], [7])] : List (HexPath × Bytes)).find?
          (fun e => e.1 == q)).map (fun e => e.2) :=
  ⟨by decide, by decide,
    insert_into_data_tree_roundtrip _ _ (by decide) (by decide)⟩

end Mercatoria
